import Mathlib

/-!
Verification of the persistent red-black tree map in `src/rbtree.rs`
(Matt Might's four-color deletion algorithm with DoubleBlack/NegativeBlack).

The Rust code is shallowly embedded: node handles become an inductive tree,
`fail!`/`assert!`/`unreachable!` make the corresponding operations
`Option`-valued (`none` = the Rust process aborts), and the two `&mut uint`
out-parameters (`insertion_count`, `removal_count`) become extra results.
-/

set_option maxHeartbeats 1000000

/-- The four-valued color from `enum Color` in `src/rbtree.rs`. -/
inductive Color where
  | NegativeBlack
  | Red
  | Black
  | DoubleBlack
deriving DecidableEq, Repr

/-- `Color::inc`: NB→R→B→BB; `fail!` on DoubleBlack becomes `none`. -/
def Color.inc : Color → Option Color
  | .NegativeBlack => some .Red
  | .Red => some .Black
  | .Black => some .DoubleBlack
  | .DoubleBlack => none

/-- `Color::dec`: BB→B→R→NB; `fail!` on NegativeBlack becomes `none`. -/
def Color.dec : Color → Option Color
  | .NegativeBlack => none
  | .Red => some .NegativeBlack
  | .Black => some .Red
  | .DoubleBlack => some .Black

/-- `NodeRef<K, V>`: a colored leaf (`data == None`) or a colored internal node
with left child, key, value and right child (`NodeData`). -/
inductive NodeRef (K V : Type) where
  | leaf (col : Color)
  | node (col : Color) (left : NodeRef K V) (key : K) (val : V) (right : NodeRef K V)
deriving DecidableEq, Repr

namespace NodeRef

variable {K V : Type}

/-- The `col` field of a `NodeRef`. -/
def col : NodeRef K V → Color
  | .leaf c => c
  | .node c _ _ _ _ => c

/-- `NodeRef::is_leaf`. -/
def isLeaf : NodeRef K V → Bool
  | .leaf _ => true
  | .node _ _ _ _ _ => false

/-- `new_leaf`: asserts the color is Black or DoubleBlack. -/
def newLeaf (c : Color) : Option (NodeRef K V) :=
  if c = Color.Black ∨ c = Color.DoubleBlack then some (.leaf c) else none

/-- `NodeRef::redden`: recolor an internal node Red; asserts non-leaf. -/
def redden : NodeRef K V → Option (NodeRef K V)
  | .leaf _ => none
  | .node _ l k v r => some (.node Color.Red l k v r)

/-- `NodeRef::blacken`: recolor any node Black (total). -/
def blacken : NodeRef K V → NodeRef K V
  | .leaf _ => .leaf Color.Black
  | .node _ l k v r => .node Color.Black l k v r

/-- `NodeRef::inc`: apply `Color::inc` to the node's own color. -/
def incNode : NodeRef K V → Option (NodeRef K V)
  | .leaf c => (c.inc).map (fun c' => .leaf c')
  | .node c l k v r => (c.inc).map (fun c' => .node c' l k v r)

/-- `NodeRef::dec`: apply `Color::dec` to the node's own color. -/
def decNode : NodeRef K V → Option (NodeRef K V)
  | .leaf c => (c.dec).map (fun c' => .leaf c')
  | .node c l k v r => (c.dec).map (fun c' => .node c' l k v r)

/-- `NodeRef::find`: standard BST descent. -/
def find [LinearOrder K] : NodeRef K V → K → Option V
  | .leaf _, _ => none
  | .node _ l k v r, searchKey =>
    if searchKey < k then l.find searchKey
    else if searchKey > k then r.find searchKey
    else some v

/-- `NodeRef::count_black_height`: asserts every visited color is Red or Black;
leaves count 1, Black nodes add 1, and the children are combined with `combine`. -/
def countBlackHeight (combine : Nat → Nat → Nat) : NodeRef K V → Option Nat
  | .leaf c =>
    if c = Color.Red ∨ c = Color.Black then some 1 else none
  | .node c l _ _ r =>
    if c = Color.Red ∨ c = Color.Black then
      match countBlackHeight combine l, countBlackHeight combine r with
      | some a, some b => some ((if c = Color.Black then 1 else 0) + combine a b)
      | _, _ => none
    else none

/-- `NodeRef::no_red_red`: asserts every visited color is Red or Black and
checks that no Red node has a Red child. -/
def noRedRed : NodeRef K V → Option Bool
  | .leaf c =>
    if c = Color.Red ∨ c = Color.Black then some true else none
  | .node c l _ _ r =>
    if c = Color.Red ∨ c = Color.Black then
      if (l.col = Color.Red ∨ l.col = Color.Black) ∧
         (r.col = Color.Red ∨ r.col = Color.Black) then
        if c = Color.Black then
          match l.noRedRed, r.noRedRed with
          | some a, some b => some (a && b)
          | _, _ => none
        else if c = Color.Red ∧ l.col = Color.Black ∧ r.col = Color.Black then
          match l.noRedRed, r.noRedRed with
          | some a, some b => some (a && b)
          | _, _ => none
        else some false
      else none
    else none

/-- `NodeRef::black_balanced`: the max and min black-height counts agree. -/
def blackBalanced (t : NodeRef K V) : Option Bool :=
  match t.countBlackHeight max, t.countBlackHeight min with
  | some a, some b => some (decide (a = b))
  | _, _ => none

/-- `NodeRef::find_max_kvp`: asserts non-leaf; returns the rightmost key-value pair. -/
def findMaxKvp : NodeRef K V → Option (K × V)
  | .leaf _ => none
  | .node _ _ k v r =>
    if r.isLeaf then some (k, v) else r.findMaxKvp

/-- Size measure used for termination of `balance` and the deletion helpers. -/
def nsize : NodeRef K V → Nat
  | .leaf _ => 1
  | .node _ l _ _ r => 1 + nsize l + nsize r

end NodeRef

/-- Outcome of one pattern block inside `balance`: a case fired producing a
rewritten node, the block fell through to the next one, or an internal
assertion failed. -/
inductive BalOut (K V : Type) where
  | fired (t : NodeRef K V)
  | fallthrough
  | abort

namespace NodeRef

variable {K V : Type}

/-- The two left-side Okasaki cases of `NodeRef::balance` (lines 283-318):
a Red left child with a Red grandchild; `assert!(!is_leaf())` on a Red leaf
becomes `.abort`. -/
def okLeft (resultCol : Color) (l : NodeRef K V) (zk : K) (zv : V) (d : NodeRef K V) :
    BalOut K V :=
  if l.col = Color.Red then
    match l with
    | .leaf _ => .abort
    | .node _ lgc yk yv rgc =>
      if lgc.col = Color.Red then
        match lgc with
        | .leaf _ => .abort
        | .node _ a xk xv b =>
          .fired (.node resultCol (.node Color.Black a xk xv b) yk yv
                    (.node Color.Black rgc zk zv d))
      else if rgc.col = Color.Red then
        match rgc with
        | .leaf _ => .abort
        | .node _ b mk mv c2 =>
          .fired (.node resultCol (.node Color.Black lgc yk yv b) mk mv
                    (.node Color.Black c2 zk zv d))
      else .fallthrough
  else .fallthrough

/-- The two right-side Okasaki cases of `NodeRef::balance` (lines 320-352). -/
def okRight (resultCol : Color) (a : NodeRef K V) (xk : K) (xv : V) (r : NodeRef K V) :
    BalOut K V :=
  if r.col = Color.Red then
    match r with
    | .leaf _ => .abort
    | .node _ lgc yk yv rgc =>
      if lgc.col = Color.Red then
        match lgc with
        | .leaf _ => .abort
        | .node _ b mk mv c2 =>
          .fired (.node resultCol (.node Color.Black a xk xv b) mk mv
                    (.node Color.Black c2 yk yv rgc))
      else if rgc.col = Color.Red then
        match rgc with
        | .leaf _ => .abort
        | .node _ c2 zk zv d =>
          .fired (.node resultCol (.node Color.Black a xk xv lgc) yk yv
                    (.node Color.Black c2 zk zv d))
      else .fallthrough
  else .fallthrough

/-- The Okasaki section of `NodeRef::balance` (lines 283-352): the left block
runs first; if it falls through, the right block runs. -/
def balanceOkasaki (resultCol : Color) (l : NodeRef K V) (k : K) (v : V)
    (r : NodeRef K V) : BalOut K V :=
  match okLeft resultCol l k v r with
  | .fallthrough => okRight resultCol l k v r
  | out => out

/-- `balance` specialised to a Black-rooted node: the two DoubleBlack cases
cannot apply, so it is the Okasaki section (with `result_col = dec Black =
Red`) followed by returning the node unchanged.  The source's recursive
`balance` calls (lines 381 and 410) are always on nodes built with color
Black, so those call sites use this function; `balance_black_spec` below
proves it agrees with `balance` on Black-rooted nodes. -/
def balanceBlack (l : NodeRef K V) (k : K) (v : V) (r : NodeRef K V) :
    Option (NodeRef K V) :=
  match balanceOkasaki Color.Red l k v r with
  | .fired t => some t
  | .abort => none
  | .fallthrough => some (.node Color.Black l k v r)

/-- The second DoubleBlack case of `balance` (lines 387-417): a NegativeBlack
left child whose left grandchild is Black and whose right grandchild is a
Black non-leaf.  `redden` of the left grandchild is inlined as a match (it
asserts non-leaf and recolors Red). -/
def balanceNBLeftCase (c : Color) (l : NodeRef K V) (k : K) (v : V)
    (r : NodeRef K V) : Option (NodeRef K V) :=
  match l with
  | .leaf Color.NegativeBlack => none
  | .node Color.NegativeBlack lgc2 xk xv rgc2 =>
    if lgc2.col = Color.Black ∧ rgc2.isLeaf = false ∧ rgc2.col = Color.Black then
      match lgc2, rgc2 with
      | .node _ aa ak av ab, .node _ b2 yk2 yv2 c3 =>
        match balanceBlack (.node Color.Red aa ak av ab) xk xv b2 with
        | none => none
        | some inner =>
          some (.node Color.Black inner yk2 yv2 (.node Color.Black c3 k v r))
      | .leaf _, .node _ _ _ _ _ => none
      | _, .leaf _ => none
    else some (.node c l k v r)
  | _ => some (.node c l k v r)

/-- The two DoubleBlack cases of `balance` in source order (lines 355-417):
first the NegativeBlack-right-child case (with `redden` of the right
grandchild inlined), then the NegativeBlack-left-child case; when the node is
not DoubleBlack, or no case matches, the node is returned unchanged. -/
def balanceBBCases (c : Color) (l : NodeRef K V) (k : K) (v : V)
    (r : NodeRef K V) : Option (NodeRef K V) :=
  if c = Color.DoubleBlack then
    match r with
    | .leaf Color.NegativeBlack => none
    | .node Color.NegativeBlack lgc zk zv rgc =>
      if lgc.isLeaf = false ∧ lgc.col = Color.Black ∧ rgc.col = Color.Black then
        match lgc, rgc with
        | .node _ b yk yv c2, .node _ da dk dv db =>
          match balanceBlack c2 zk zv (.node Color.Red da dk dv db) with
          | none => none
          | some inner =>
            some (.node Color.Black (.node Color.Black l k v b) yk yv inner)
        | .node _ _ _ _ _, .leaf _ => none
        | .leaf _, _ => none
      else balanceNBLeftCase c l k v r
    | _ => balanceNBLeftCase c l k v r
  else some (.node c l k v r)

/-- `NodeRef::balance` (lines 275-437).  The entry assertion makes leaves
abort.  For a Black or DoubleBlack node `result_col = dec(col)` is computed
and the four Okasaki cases run; then the two DoubleBlack/NegativeBlack cases
run; otherwise the node is returned unchanged. -/
def balance : NodeRef K V → Option (NodeRef K V)
  | .leaf _ => none
  | .node c l k v r =>
    if c = Color.Black ∨ c = Color.DoubleBlack then
      match c.dec with
      | none => none
      | some resultCol =>
        match balanceOkasaki resultCol l k v r with
        | .fired t => some t
        | .abort => none
        | .fallthrough => balanceBBCases c l k v r
    else balanceBBCases c l k v r

end NodeRef

namespace NodeRef

variable {K V : Type}

/-- `NodeRef::modify_at_rec` (lines 247-272): recursive insertion.  The leaf
case asserts the leaf is Black and returns a Red node with the leaf as both
children; inner cases rebuild the node and run `balance`; an equal key
overwrites the value without rebalancing.  The `insertion_count`
out-parameter becomes the second component of the result. -/
def modifyAtRec [LinearOrder K] : NodeRef K V → K → V → Option (NodeRef K V × Nat)
  | .leaf c, key, val =>
    if c = Color.Black then
      some (.node Color.Red (.leaf c) key val (.leaf c), 1)
    else none
  | .node c l k v r, key, val =>
    if key < k then
      match modifyAtRec l key val with
      | none => none
      | some (l', cnt) =>
        match balance (.node c l' k v r) with
        | none => none
        | some t => some (t, cnt)
    else if key > k then
      match modifyAtRec r key val with
      | none => none
      | some (r', cnt) =>
        match balance (.node c l k v r') with
        | none => none
        | some t => some (t, cnt)
    else some (.node c l k val r, 0)

/-- `NodeRef::modify_at` (lines 242-245): insert, then blacken the root. -/
def modifyAt [LinearOrder K] (t : NodeRef K V) (key : K) (val : V) :
    Option (NodeRef K V × Nat) :=
  match modifyAtRec t key val with
  | none => none
  | some (t', cnt) => some (t'.blacken, cnt)

/-- `bubble` (lines 543-552): if either child is DoubleBlack, push the extra
blackness into this node (`inc` the color, `dec` both children) and rebalance;
otherwise rebuild the node unchanged. -/
def bubble (c : Color) (l : NodeRef K V) (k : K) (v : V) (r : NodeRef K V) :
    Option (NodeRef K V) :=
  if l.col = Color.DoubleBlack ∨ r.col = Color.DoubleBlack then
    match c.inc, l.decNode, r.decNode with
    | some c', some l', some r' => balance (.node c' l' k v r')
    | _, _, _ => none
  else some (.node c l k v r)

mutual

/-- `remove` nested in `NodeRef::delete` (lines 469-539): remove this node's
own key-value pair, possibly leaving a DoubleBlack behind.  Guards are checked
in the source's order; `unreachable!()` and `get_data` on a leaf become
`none`. -/
def removeNode : NodeRef K V → Option (NodeRef K V)
  | .leaf _ => none
  | .node c l k v r =>
    if l.isLeaf = true ∧ r.isLeaf = true then
      if c = Color.Red then newLeaf Color.Black
      else if c = Color.Black then newLeaf Color.DoubleBlack
      else none
    else if c = Color.Red ∧ r.isLeaf = true then some l
    else if c = Color.Red ∧ l.isLeaf = true then some r
    else if c = Color.Black ∧ l.col = Color.Red ∧ r.isLeaf = true then
      match l with
      | .node _ la lk lv lb => some (.node Color.Black la lk lv lb)
      | .leaf _ => none
    else if c = Color.Black ∧ l.isLeaf = true ∧ r.col = Color.Red then
      match r with
      | .node _ ra rk rv rb => some (.node Color.Black ra rk rv rb)
      | .leaf _ => none
    else if c = Color.Black ∧ l.isLeaf = true ∧ r.col = Color.Black then
      incNode r
    else if c = Color.Black ∧ l.col = Color.Black ∧ r.isLeaf = true then
      incNode l
    else if l.isLeaf = false ∧ r.isLeaf = false then
      match findMaxKvp l with
      | none => none
      | some (mk, mv) =>
        match removeMax l with
        | none => none
        | some l' => bubble c l' mk mv r
    else none
termination_by t => (nsize t, 0)
decreasing_by all_goals (simp [nsize, Prod.lex_iff] <;> omega)

/-- `remove_max` nested in `NodeRef::delete` (lines 555-565): delete the
rightmost node. -/
def removeMax : NodeRef K V → Option (NodeRef K V)
  | .leaf _ => none
  | .node c l k v r =>
    if r.isLeaf then removeNode (.node c l k v r)
    else
      match removeMax r with
      | none => none
      | some r' => bubble c l k v r'
termination_by t => (nsize t, 1)
decreasing_by all_goals (simp [nsize, Prod.lex_iff] <;> omega)

end

/-- `del` nested in `NodeRef::delete` (lines 442-465): find the key and remove
it; at a leaf the key is absent and the leaf is returned with count 0. -/
def del [LinearOrder K] : NodeRef K V → K → Option (NodeRef K V × Nat)
  | .leaf c, _ => some (.leaf c, 0)
  | .node c l k v r, searchKey =>
    if searchKey < k then
      match del l searchKey with
      | none => none
      | some (l', cnt) =>
        match bubble c l' k v r with
        | none => none
        | some t => some (t, cnt)
    else if searchKey > k then
      match del r searchKey with
      | none => none
      | some (r', cnt) =>
        match bubble c l k v r' with
        | none => none
        | some t => some (t, cnt)
    else
      match removeNode (.node c l k v r) with
      | none => none
      | some t => some (t, 1)

/-- `NodeRef::delete` (line 569): run `del` and blacken the new root. -/
def delete [LinearOrder K] (t : NodeRef K V) (searchKey : K) :
    Option (NodeRef K V × Nat) :=
  match del t searchKey with
  | none => none
  | some (t', cnt) => some (t'.blacken, cnt)

end NodeRef

/-- `struct RedBlackTree<K, V>`: a root node and an element count. -/
structure RedBlackTree (K V : Type) where
  root : NodeRef K V
  len : Nat
deriving DecidableEq, Repr

namespace RedBlackTree

variable {K V : Type}

/-- `RedBlackTree::new` (lines 580-585): a Black leaf root and length 0. -/
def new : RedBlackTree K V := ⟨.leaf Color.Black, 0⟩

/-- `RedBlackTree::find` (lines 587-589). -/
def find [LinearOrder K] (m : RedBlackTree K V) (searchKey : K) : Option V :=
  m.root.find searchKey

/-- `RedBlackTree::insert` (lines 591-596): the result flag is
`insertion_count != 0` and the length grows by `insertion_count`. -/
def insert [LinearOrder K] (m : RedBlackTree K V) (key : K) (val : V) :
    Option (RedBlackTree K V × Bool) :=
  match NodeRef.modifyAt m.root key val with
  | none => none
  | some (t, cnt) => some (⟨t, m.len + cnt⟩, cnt != 0)

/-- `RedBlackTree::remove` (lines 598-603): the result flag is
`removal_count != 0` and the length shrinks by `removal_count`. -/
def remove [LinearOrder K] (m : RedBlackTree K V) (key : K) :
    Option (RedBlackTree K V × Bool) :=
  match NodeRef.delete m.root key with
  | none => none
  | some (t, cnt) => some (⟨t, m.len - cnt⟩, cnt != 0)

end RedBlackTree

/-! ## Specification-level model: in-order lists, order and color invariants -/

/-- In-order list of the key-value pairs reachable from a node. -/
def inorder {K V : Type} : NodeRef K V → List (K × V)
  | .leaf _ => []
  | .node _ l k v r => inorder l ++ (k, v) :: inorder r

/-- A key-value list with strictly increasing keys. -/
def SortedKV {K V : Type} [LinearOrder K] (xs : List (K × V)) : Prop :=
  xs.Pairwise (fun a b => a.1 < b.1)

/-- Association-list lookup (first match). -/
def lookupKV {K V : Type} [DecidableEq K] : List (K × V) → K → Option V
  | [], _ => none
  | (k, v) :: rest, key => if key = k then some v else lookupKV rest key

/-- List-level insertion into a sorted key-value list (overwrite on equal key). -/
def insList {K V : Type} [LinearOrder K] : List (K × V) → K → V → List (K × V)
  | [], key, val => [(key, val)]
  | (k, v) :: rest, key, val =>
    if key < k then (key, val) :: (k, v) :: rest
    else if k < key then (k, v) :: insList rest key val
    else (key, val) :: rest

/-- List-level deletion from a key-value list (first match). -/
def delList {K V : Type} [DecidableEq K] : List (K × V) → K → List (K × V)
  | [], _ => []
  | (k, v) :: rest, key => if key = k then rest else (k, v) :: delList rest key

/-- Every key reachable from the node satisfies `p`. -/
def allKeys {K V : Type} (p : K → Prop) : NodeRef K V → Prop
  | .leaf _ => True
  | .node _ l k _ r => p k ∧ allKeys p l ∧ allKeys p r

/-- Invariant 1 (BST order): keys in the left subtree are smaller than the
node's key, keys in the right subtree larger. -/
def BSTOrder {K V : Type} [LinearOrder K] : NodeRef K V → Prop
  | .leaf _ => True
  | .node _ l k _ r =>
    allKeys (fun x => x < k) l ∧ allKeys (fun x => k < x) r ∧ BSTOrder l ∧ BSTOrder r

/-- Invariant 4 (persistent colors): no reachable node is NegativeBlack or
DoubleBlack; by the data model leaves are Black. -/
def PersistedColors {K V : Type} : NodeRef K V → Prop
  | .leaf c => c = Color.Black
  | .node c l _ _ r =>
    (c = Color.Red ∨ c = Color.Black) ∧ PersistedColors l ∧ PersistedColors r

/-- Invariant 2 (no red-red): no Red node has a Red child. -/
def NoRedRedInv {K V : Type} : NodeRef K V → Prop
  | .leaf _ => True
  | .node c l _ _ r =>
    (c = Color.Red → l.col ≠ Color.Red ∧ r.col ≠ Color.Red) ∧
      NoRedRedInv l ∧ NoRedRedInv r

/-- Invariant 3 (black balance): every root-to-leaf path contains `n` Black
nodes, counting leaves as one Black node each. -/
def EqualBH {K V : Type} : NodeRef K V → Nat → Prop
  | .leaf _, n => n = 1
  | .node c l _ _ r, n =>
    ∃ m, EqualBH l m ∧ EqualBH r m ∧ n = (if c = Color.Black then 1 else 0) + m

/-- Invariant 5 helper: the number of distinct keys reachable from the node. -/
def distinctKeyCount {K V : Type} [DecidableEq K] (t : NodeRef K V) : Nat :=
  ((inorder t).map Prod.fst).dedup.length

/-- The red-black balance invariant as one inductive: `IsRB t c n` says `t`
is a valid persisted tree with root color `c` and black-height `n` (leaves
have height 1, matching `count_black_height`). -/
inductive IsRB {K V : Type} : NodeRef K V → Color → Nat → Prop where
  | leaf : IsRB (.leaf Color.Black) Color.Black 1
  | black {l r : NodeRef K V} {k : K} {v : V} {n : Nat} {cl cr : Color} :
      IsRB l cl n → IsRB r cr n → IsRB (.node Color.Black l k v r) Color.Black (n + 1)
  | red {l r : NodeRef K V} {k : K} {v : V} {n : Nat} :
      IsRB l Color.Black n → IsRB r Color.Black n → IsRB (.node Color.Red l k v r) Color.Red n

/-- Insertion intermediate: a Red-rooted node whose subtrees are valid with
equal black-height `n`, but whose children may have Red roots (a red-red
violation at the root only). -/
def AlmostRed {K V : Type} (t : NodeRef K V) (n : Nat) : Prop :=
  ∃ l k v r cl cr, t = NodeRef.node Color.Red l k v r ∧ IsRB l cl n ∧ IsRB r cr n

/-- A tree that is either valid or has a red-red violation at the root only:
the shape of `modify_at_rec`'s result. -/
def AlmostRB {K V : Type} (t : NodeRef K V) (n : Nat) : Prop :=
  (∃ c, IsRB t c n) ∨ AlmostRed t n

/-- The transient NegativeBlack shape produced by `bubble` when it decrements
a Red node: a NegativeBlack node over two Black-rooted subtrees whose height
exceeds the sibling's by one. -/
def NBShape {K V : Type} (t : NodeRef K V) (m : Nat) : Prop :=
  ∃ p pk pv q, t = NodeRef.node Color.NegativeBlack p pk pv q ∧
    IsRB p Color.Black (m + 1) ∧ IsRB q Color.Black (m + 1)

/-- Deletion intermediate: a valid tree, or a tree whose root carries one
extra unit of blackness (a DoubleBlack leaf of height 2, or a DoubleBlack
node over two valid subtrees). -/
inductive DelRes {K V : Type} : NodeRef K V → Nat → Prop where
  | ok {t : NodeRef K V} {c : Color} {n : Nat} : IsRB t c n → DelRes t n
  | bbLeaf : DelRes (.leaf Color.DoubleBlack) 2
  | bbNode {l r : NodeRef K V} {k : K} {v : V} {n : Nat} {cl cr : Color} :
      IsRB l cl n → IsRB r cr n → DelRes (.node Color.DoubleBlack l k v r) (n + 2)

/-- Deletion intermediate with a Black or DoubleBlack root (the result shape
of deleting inside a Black-rooted subtree). -/
def DelB {K V : Type} (t : NodeRef K V) (n : Nat) : Prop :=
  DelRes t n ∧ (t.col = Color.Black ∨ t.col = Color.DoubleBlack)

/-- A public mutating operation on the map. -/
inductive MapOp (K V : Type) where
  | insert (key : K) (val : V)
  | remove (key : K)

/-- Apply one public operation, keeping only the new map. -/
def applyOp {K V : Type} [LinearOrder K] (m : RedBlackTree K V) :
    MapOp K V → Option (RedBlackTree K V)
  | .insert k v => (RedBlackTree.insert m k v).map Prod.fst
  | .remove k => (RedBlackTree.remove m k).map Prod.fst

/-- Apply a sequence of public operations from left to right. -/
def applyOps {K V : Type} [LinearOrder K] (m : RedBlackTree K V) :
    List (MapOp K V) → Option (RedBlackTree K V)
  | [] => some m
  | op :: rest =>
    match applyOp m op with
    | none => none
    | some m' => applyOps m' rest

/-- The five persisted invariants of the specification, on a map value. -/
def RBInv {K V : Type} [LinearOrder K] (m : RedBlackTree K V) : Prop :=
  BSTOrder m.root ∧ NoRedRedInv m.root ∧ (∃ n, EqualBH m.root n) ∧
    PersistedColors m.root ∧ m.len = distinctKeyCount m.root

/-- The five persisted invariants plus the (implicit) Black-root invariant
maintained by `new`, `insert` and `remove`. -/
def WFMap {K V : Type} [LinearOrder K] (m : RedBlackTree K V) : Prop :=
  RBInv m ∧ m.root.col = Color.Black

/-! ## Basic structural lemmas -/

@[simp] theorem NodeRef.col_leaf {K V : Type} (c : Color) :
    (NodeRef.leaf c : NodeRef K V).col = c := rfl

@[simp] theorem NodeRef.col_node {K V : Type} (c : Color) (l : NodeRef K V) (k : K)
    (v : V) (r : NodeRef K V) : (NodeRef.node c l k v r).col = c := rfl

@[simp] theorem NodeRef.isLeaf_leaf {K V : Type} (c : Color) :
    (NodeRef.leaf c : NodeRef K V).isLeaf = true := rfl

@[simp] theorem NodeRef.isLeaf_node {K V : Type} (c : Color) (l : NodeRef K V) (k : K)
    (v : V) (r : NodeRef K V) : (NodeRef.node c l k v r).isLeaf = false := rfl

@[simp] theorem inorder_leaf {K V : Type} (c : Color) :
    inorder (NodeRef.leaf c : NodeRef K V) = [] := rfl

@[simp] theorem inorder_node {K V : Type} (c : Color) (l : NodeRef K V) (k : K)
    (v : V) (r : NodeRef K V) :
    inorder (NodeRef.node c l k v r) = inorder l ++ (k, v) :: inorder r := rfl

theorem IsRB.col_eq {K V : Type} {t : NodeRef K V} {c : Color} {n : Nat}
    (h : IsRB t c n) : t.col = c := by
  cases h <;> rfl

theorem IsRB.col_rb {K V : Type} {t : NodeRef K V} {c : Color} {n : Nat}
    (h : IsRB t c n) : c = Color.Red ∨ c = Color.Black := by
  cases h <;> simp

theorem IsRB.bh_pos {K V : Type} {t : NodeRef K V} {c : Color} {n : Nat}
    (h : IsRB t c n) : 1 ≤ n := by
  induction h with
  | leaf => omega
  | black _ _ ihl _ => omega
  | red _ _ ihl _ => omega

theorem IsRB.nonleaf {K V : Type} {t : NodeRef K V} {c : Color} {n : Nat}
    (h : IsRB t c n) (h2 : 2 ≤ n) : t.isLeaf = false := by
  cases h with
  | leaf => omega
  | black _ _ => rfl
  | red hl _ => rfl

theorem IsRB.red_nonleaf {K V : Type} {t : NodeRef K V} {n : Nat}
    (h : IsRB t Color.Red n) : t.isLeaf = false := by
  cases h; rfl

/-! ## List-model lemmas -/

theorem lookupKV_eq_none_iff {K V : Type} [DecidableEq K] {xs : List (K × V)} {key : K} :
    lookupKV xs key = none ↔ ∀ p ∈ xs, p.1 ≠ key := by
  induction xs with
  | nil => simp [lookupKV]
  | cons p rest ih =>
    obtain ⟨k, v⟩ := p
    by_cases h : key = k
    · subst h
      simp only [lookupKV, if_pos rfl, List.forall_mem_cons]
      constructor
      · intro hc; cases hc
      · rintro ⟨hk, _⟩; exact absurd rfl hk
    · rw [lookupKV, if_neg h, ih, List.forall_mem_cons]
      have hne : (k, v).1 ≠ key := fun hc => h hc.symm
      exact (and_iff_right hne).symm

theorem lookupKV_append_left {K V : Type} [DecidableEq K] {xs : List (K × V)}
    {key : K} {v : V} (h : lookupKV xs key = some v) (ys : List (K × V)) :
    lookupKV (xs ++ ys) key = some v := by
  induction xs with
  | nil => simp [lookupKV] at h
  | cons p rest ih =>
    obtain ⟨k, w⟩ := p
    by_cases hk : key = k <;> simp_all [lookupKV]

theorem lookupKV_append_right {K V : Type} [DecidableEq K] {xs : List (K × V)}
    {key : K} (h : lookupKV xs key = none) (ys : List (K × V)) :
    lookupKV (xs ++ ys) key = lookupKV ys key := by
  induction xs with
  | nil => simp [lookupKV]
  | cons p rest ih =>
    obtain ⟨k, w⟩ := p
    by_cases hk : key = k <;> simp_all [lookupKV]

theorem sortedKV_middle {K V : Type} [LinearOrder K] {L R : List (K × V)} {k : K} {v : V} :
    SortedKV (L ++ (k, v) :: R) ↔
      SortedKV L ∧ SortedKV R ∧ (∀ p ∈ L, p.1 < k) ∧ (∀ q ∈ R, k < q.1) := by
  unfold SortedKV
  rw [List.pairwise_append]
  simp only [List.pairwise_cons, List.mem_cons]
  constructor
  · rintro ⟨hL, ⟨hmid, hR⟩, hcross⟩
    refine ⟨hL, hR, fun p hp => hcross p hp (k, v) (Or.inl rfl), fun q hq => hmid q hq⟩
  · rintro ⟨hL, hR, hLk, hkR⟩
    refine ⟨hL, ⟨fun q hq => hkR q hq, hR⟩, ?_⟩
    rintro p hp b (rfl | hb)
    · exact hLk p hp
    · exact lt_trans (hLk p hp) (hkR b hb)

theorem find_eq_lookupKV {K V : Type} [LinearOrder K] {t : NodeRef K V}
    (h : SortedKV (inorder t)) (key : K) :
    t.find key = lookupKV (inorder t) key := by
  induction t with
  | leaf c => simp [NodeRef.find, lookupKV]
  | node c l k v r ihl ihr =>
    simp only [inorder_node] at h
    obtain ⟨hL, hR, hLk, hkR⟩ := sortedKV_middle.mp h
    rcases lt_trichotomy key k with hlt | heq | hgt
    · have hnone : lookupKV ((k, v) :: inorder r) key = none := by
        rw [lookupKV_eq_none_iff]
        intro p hp
        rcases List.mem_cons.mp hp with hpe | hp
        · subst hpe; exact fun hc => absurd hc.symm (ne_of_lt hlt)
        · exact fun hc => absurd hc (ne_of_gt (lt_trans hlt (hkR p hp)))
      cases hfl : lookupKV (inorder l) key with
      | none =>
        rw [NodeRef.find, if_pos hlt, ihl hL, hfl, inorder_node,
          lookupKV_append_right hfl, hnone]
      | some v' =>
        rw [NodeRef.find, if_pos hlt, ihl hL, hfl, inorder_node,
          lookupKV_append_left hfl]
    · subst heq
      have hnone : lookupKV (inorder l) key = none := by
        rw [lookupKV_eq_none_iff]
        exact fun p hp => ne_of_lt (hLk p hp)
      rw [NodeRef.find, if_neg (lt_irrefl key), if_neg (lt_irrefl key), inorder_node,
        lookupKV_append_right hnone, lookupKV, if_pos rfl]
    · have hnone : lookupKV (inorder l) key = none := by
        rw [lookupKV_eq_none_iff]
        exact fun p hp => ne_of_lt (lt_trans (hLk p hp) hgt)
      rw [NodeRef.find, if_neg (not_lt_of_gt hgt), if_pos hgt, ihr hR, inorder_node,
        lookupKV_append_right hnone, lookupKV, if_neg (ne_of_gt hgt)]

theorem allKeys_iff_inorder {K V : Type} {p : K → Prop} {t : NodeRef K V} :
    allKeys p t ↔ ∀ q ∈ inorder t, p q.1 := by
  induction t with
  | leaf c => simp [allKeys]
  | node c l k v r ihl ihr =>
    rw [allKeys, inorder_node, ihl, ihr]
    constructor
    · rintro ⟨hk, hl, hr⟩ q hq
      rcases List.mem_append.mp hq with hq | hq
      · exact hl q hq
      · rcases List.mem_cons.mp hq with rfl | hq
        · exact hk
        · exact hr q hq
    · intro h
      refine ⟨h (k, v) ?_, fun q hq => h q ?_, fun q hq => h q ?_⟩
      · exact List.mem_append.mpr (Or.inr (List.mem_cons_self _ _))
      · exact List.mem_append.mpr (Or.inl hq)
      · exact List.mem_append.mpr (Or.inr (List.mem_cons_of_mem _ hq))

theorem bstOrder_iff_sorted {K V : Type} [LinearOrder K] {t : NodeRef K V} :
    BSTOrder t ↔ SortedKV (inorder t) := by
  induction t with
  | leaf c => simp [BSTOrder, SortedKV]
  | node c l k v r ihl ihr =>
    rw [BSTOrder, inorder_node, sortedKV_middle, allKeys_iff_inorder, allKeys_iff_inorder]
    tauto

theorem mem_insList {K V : Type} [LinearOrder K] {xs : List (K × V)} {key : K}
    {val : V} {p : K × V} (h : p ∈ insList xs key val) : p = (key, val) ∨ p ∈ xs := by
  induction xs with
  | nil => simpa [insList] using h
  | cons q rest ih =>
    obtain ⟨k, v⟩ := q
    rw [insList] at h
    split_ifs at h with h1 h2
    · rcases List.mem_cons.mp h with rfl | h
      · exact Or.inl rfl
      · exact Or.inr h
    · rcases List.mem_cons.mp h with rfl | h
      · exact Or.inr (List.mem_cons_self _ _)
      · rcases ih h with rfl | h
        · exact Or.inl rfl
        · exact Or.inr (List.mem_cons_of_mem _ h)
    · rcases List.mem_cons.mp h with rfl | h
      · exact Or.inl rfl
      · exact Or.inr (List.mem_cons_of_mem _ h)

theorem sortedKV_insList {K V : Type} [LinearOrder K] {xs : List (K × V)} {key : K}
    {val : V} (h : SortedKV xs) : SortedKV (insList xs key val) := by
  induction xs with
  | nil => simp [insList, SortedKV]
  | cons q rest ih =>
    obtain ⟨k, v⟩ := q
    rw [SortedKV, List.pairwise_cons] at h
    obtain ⟨hk, hrest⟩ := h
    rw [insList]
    split_ifs with h1 h2
    · rw [SortedKV, List.pairwise_cons]
      refine ⟨?_, List.pairwise_cons.mpr ⟨hk, hrest⟩⟩
      intro q hq
      rcases List.mem_cons.mp hq with rfl | hq
      · exact h1
      · exact lt_trans h1 (hk q hq)
    · rw [SortedKV, List.pairwise_cons]
      refine ⟨?_, ih hrest⟩
      intro q hq
      rcases mem_insList hq with rfl | hq
      · exact h2
      · exact hk q hq
    · have hkey : key = k := le_antisymm (not_lt.mp h2) (not_lt.mp h1)
      rw [SortedKV, List.pairwise_cons]
      exact ⟨fun q hq => hkey ▸ hk q hq, hrest⟩

theorem lookupKV_insList_self {K V : Type} [LinearOrder K] (xs : List (K × V))
    (key : K) (val : V) : lookupKV (insList xs key val) key = some val := by
  induction xs with
  | nil => simp [insList, lookupKV]
  | cons q rest ih =>
    obtain ⟨k, v⟩ := q
    rw [insList]
    split_ifs with h1 h2
    · simp [lookupKV]
    · have hne : key ≠ k := ne_of_gt h2
      simp [lookupKV, hne, ih]
    · simp [lookupKV]

theorem length_insList_none {K V : Type} [LinearOrder K] {xs : List (K × V)} {key : K}
    (val : V) (h : lookupKV xs key = none) :
    (insList xs key val).length = xs.length + 1 := by
  induction xs with
  | nil => simp [insList]
  | cons q rest ih =>
    obtain ⟨k, v⟩ := q
    by_cases hk : key = k
    · rw [lookupKV, if_pos hk] at h; cases h
    · rw [lookupKV, if_neg hk] at h
      rw [insList]
      split_ifs with h1 h2
      · simp
      · simp [ih h]
      · exact absurd (le_antisymm (not_lt.mp h2) (not_lt.mp h1)) hk

theorem length_insList_some {K V : Type} [LinearOrder K] {xs : List (K × V)} {key : K}
    {w : V} (val : V) (hs : SortedKV xs) (h : lookupKV xs key = some w) :
    (insList xs key val).length = xs.length := by
  induction xs with
  | nil => simp [lookupKV] at h
  | cons q rest ih =>
    obtain ⟨k, v⟩ := q
    rw [SortedKV, List.pairwise_cons] at hs
    obtain ⟨hk, hrest⟩ := hs
    by_cases hke : key = k
    · subst hke
      rw [insList, if_neg (lt_irrefl key), if_neg (lt_irrefl key)]
      simp
    · rw [lookupKV, if_neg hke] at h
      have hklt : k < key := by
        by_contra hcon
        have hkey_lt : key < k := lt_of_le_of_ne (not_lt.mp hcon) hke
        have hall : ∀ p ∈ rest, p.1 ≠ key := fun p hp hc =>
          absurd hc (ne_of_gt (lt_trans hkey_lt (hk p hp)))
        rw [← lookupKV_eq_none_iff] at hall
        rw [hall] at h
        cases h
      rw [insList, if_neg (not_lt_of_gt hklt), if_pos hklt]
      simp [ih hrest h]

theorem insList_append_lt {K V : Type} [LinearOrder K] {k key : K} (h : key < k)
    (L R : List (K × V)) (v : V) (val : V) :
    insList (L ++ (k, v) :: R) key val = insList L key val ++ (k, v) :: R := by
  induction L with
  | nil => simp [insList, h]
  | cons q rest ih =>
    obtain ⟨k2, v2⟩ := q
    rw [List.cons_append, insList, insList]
    split_ifs <;> simp [ih]

theorem insList_append_gt {K V : Type} [LinearOrder K] {k key : K} {L : List (K × V)}
    (hL : ∀ p ∈ L, p.1 < key) (h : k < key) (R : List (K × V)) (v : V) (val : V) :
    insList (L ++ (k, v) :: R) key val = L ++ (k, v) :: insList R key val := by
  induction L with
  | nil => simp [insList, h, not_lt_of_gt h]
  | cons q rest ih =>
    obtain ⟨k2, v2⟩ := q
    have hk2 : k2 < key := hL (k2, v2) (List.mem_cons_self _ _)
    rw [List.cons_append, insList, if_neg (not_lt_of_gt hk2), if_pos hk2,
      ih (fun p hp => hL p (List.mem_cons_of_mem _ hp))]
    rfl

theorem insList_append_eq {K V : Type} [LinearOrder K] {key : K} {L : List (K × V)}
    (hL : ∀ p ∈ L, p.1 < key) (R : List (K × V)) (v : V) (val : V) :
    insList (L ++ (key, v) :: R) key val = L ++ (key, val) :: R := by
  induction L with
  | nil => simp [insList]
  | cons q rest ih =>
    obtain ⟨k2, v2⟩ := q
    have hk2 : k2 < key := hL (k2, v2) (List.mem_cons_self _ _)
    rw [List.cons_append, insList, if_neg (not_lt_of_gt hk2), if_pos hk2,
      ih (fun p hp => hL p (List.mem_cons_of_mem _ hp))]
    rfl

theorem delList_sublist {K V : Type} [DecidableEq K] (xs : List (K × V)) (key : K) :
    List.Sublist (delList xs key) xs := by
  induction xs with
  | nil => simp [delList]
  | cons q rest ih =>
    obtain ⟨k, v⟩ := q
    rw [delList]
    split_ifs
    · exact (List.Sublist.refl rest).cons _
    · exact ih.cons₂ _

theorem sortedKV_delList {K V : Type} [LinearOrder K] {xs : List (K × V)} {key : K}
    (h : SortedKV xs) : SortedKV (delList xs key) :=
  List.Pairwise.sublist (delList_sublist xs key) h

theorem delList_eq_self {K V : Type} [DecidableEq K] {xs : List (K × V)} {key : K}
    (h : ∀ p ∈ xs, p.1 ≠ key) : delList xs key = xs := by
  induction xs with
  | nil => simp [delList]
  | cons q rest ih =>
    obtain ⟨k, v⟩ := q
    have hk : k ≠ key := h (k, v) (List.mem_cons_self _ _)
    rw [delList, if_neg (fun hc => hk hc.symm),
      ih (fun p hp => h p (List.mem_cons_of_mem _ hp))]

theorem delList_append_not_mem {K V : Type} [DecidableEq K] {L : List (K × V)}
    {key : K} (h : ∀ p ∈ L, p.1 ≠ key) (ys : List (K × V)) :
    delList (L ++ ys) key = L ++ delList ys key := by
  induction L with
  | nil => simp
  | cons q rest ih =>
    obtain ⟨k, v⟩ := q
    have hk : k ≠ key := h (k, v) (List.mem_cons_self _ _)
    rw [List.cons_append, delList, if_neg (fun hc => hk hc.symm),
      ih (fun p hp => h p (List.mem_cons_of_mem _ hp))]
    rfl

theorem delList_append_mem {K V : Type} [DecidableEq K] {L : List (K × V)}
    {key : K} (h : lookupKV L key ≠ none) (ys : List (K × V)) :
    delList (L ++ ys) key = delList L key ++ ys := by
  induction L with
  | nil => simp [lookupKV] at h
  | cons q rest ih =>
    obtain ⟨k, v⟩ := q
    by_cases hk : key = k
    · rw [List.cons_append, delList, if_pos hk, delList, if_pos hk]
    · rw [lookupKV, if_neg hk] at h
      rw [List.cons_append, delList, if_neg hk, delList, if_neg hk, ih h]
      rfl

theorem length_delList_none {K V : Type} [DecidableEq K] {xs : List (K × V)} {key : K}
    (h : lookupKV xs key = none) : (delList xs key).length = xs.length := by
  rw [delList_eq_self (lookupKV_eq_none_iff.mp h)]

theorem length_delList_some {K V : Type} [DecidableEq K] {xs : List (K × V)} {key : K}
    {w : V} (h : lookupKV xs key = some w) :
    (delList xs key).length = xs.length - 1 := by
  induction xs with
  | nil => simp [lookupKV] at h
  | cons q rest ih =>
    obtain ⟨k, v⟩ := q
    by_cases hk : key = k
    · rw [delList, if_pos hk]
      simp
    · rw [lookupKV, if_neg hk] at h
      have : 1 ≤ rest.length := by
        cases rest with
        | nil => simp [lookupKV] at h
        | cons _ _ => simp
      rw [delList, if_neg hk, List.length_cons, List.length_cons, ih h]
      omega

theorem lookupKV_delList_self {K V : Type} [LinearOrder K] {xs : List (K × V)}
    {key : K} (h : SortedKV xs) : lookupKV (delList xs key) key = none := by
  induction xs with
  | nil => simp [delList, lookupKV]
  | cons q rest ih =>
    obtain ⟨k, v⟩ := q
    rw [SortedKV, List.pairwise_cons] at h
    obtain ⟨hk, hrest⟩ := h
    by_cases hke : key = k
    · subst hke
      rw [delList, if_pos rfl, lookupKV_eq_none_iff]
      exact fun p hp => fun hc => absurd hc (ne_of_gt (hk p hp))
    · rw [delList, if_neg hke, lookupKV, if_neg hke]
      exact ih hrest

theorem delList_insList_fresh {K V : Type} [LinearOrder K] {xs : List (K × V)}
    {key : K} {val : V} (h : lookupKV xs key = none) :
    delList (insList xs key val) key = xs := by
  induction xs with
  | nil => simp [insList, delList]
  | cons q rest ih =>
    obtain ⟨k, v⟩ := q
    by_cases hk : key = k
    · rw [lookupKV, if_pos hk] at h; cases h
    · rw [lookupKV, if_neg hk] at h
      rw [insList]
      split_ifs with h1 h2
      · rw [delList, if_pos rfl]
      · rw [delList, if_neg hk, ih h]
      · exact absurd (le_antisymm (not_lt.mp h2) (not_lt.mp h1)) hk

theorem distinctKeyCount_eq_length {K V : Type} [LinearOrder K] {t : NodeRef K V}
    (h : SortedKV (inorder t)) : distinctKeyCount t = (inorder t).length := by
  unfold distinctKeyCount
  have hmap : ((inorder t).map Prod.fst).Pairwise (· < ·) :=
    List.Pairwise.map _ (fun a b hab => hab) h
  have hnd : ((inorder t).map Prod.fst).Nodup := hmap.imp ne_of_lt
  rw [List.dedup_eq_self.mpr hnd, List.length_map]

/-! ## Balance: computation lemmas -/

open NodeRef

theorem okLeft_not_red {K V : Type} {rc : Color} {l : NodeRef K V} {zk : K} {zv : V}
    {d : NodeRef K V} (h : l.col ≠ Color.Red) : okLeft rc l zk zv d = .fallthrough := by
  unfold okLeft
  rw [if_neg h]

theorem okRight_not_red {K V : Type} {rc : Color} {a : NodeRef K V} {xk : K} {xv : V}
    {r : NodeRef K V} (h : r.col ≠ Color.Red) : okRight rc a xk xv r = .fallthrough := by
  unfold okRight
  rw [if_neg h]

theorem okLeft_ll {K V : Type} {rc : Color} {a b c2 d : NodeRef K V} {xk yk zk : K}
    {xv yv : V} {zv : V} :
    okLeft rc (.node Color.Red (.node Color.Red a xk xv b) yk yv c2) zk zv d =
      .fired (.node rc (.node Color.Black a xk xv b) yk yv
        (.node Color.Black c2 zk zv d)) := by
  unfold okLeft
  simp

theorem okLeft_lr {K V : Type} {rc : Color} {g b c2 d : NodeRef K V} {yk mk zk : K}
    {yv mv : V} {zv : V} (hg : g.col ≠ Color.Red) :
    okLeft rc (.node Color.Red g yk yv (.node Color.Red b mk mv c2)) zk zv d =
      .fired (.node rc (.node Color.Black g yk yv b) mk mv
        (.node Color.Black c2 zk zv d)) := by
  unfold okLeft
  simp [hg]

theorem okLeft_red_clean {K V : Type} {rc : Color} {g h : NodeRef K V} {yk zk : K}
    {yv zv : V} {d : NodeRef K V} (hgc : g.col ≠ Color.Red) (hhc : h.col ≠ Color.Red) :
    okLeft rc (.node Color.Red g yk yv h) zk zv d = .fallthrough := by
  unfold okLeft
  simp [hgc, hhc]

theorem okRight_rl {K V : Type} {rc : Color} {a b c2 rgc : NodeRef K V} {xk mk yk : K}
    {xv mv yv : V} :
    okRight rc a xk xv (.node Color.Red (.node Color.Red b mk mv c2) yk yv rgc) =
      .fired (.node rc (.node Color.Black a xk xv b) mk mv
        (.node Color.Black c2 yk yv rgc)) := by
  unfold okRight
  simp

theorem okRight_rr {K V : Type} {rc : Color} {a lgc c2 d : NodeRef K V} {xk yk zk : K}
    {xv yv zv : V} (hg : lgc.col ≠ Color.Red) :
    okRight rc a xk xv (.node Color.Red lgc yk yv (.node Color.Red c2 zk zv d)) =
      .fired (.node rc (.node Color.Black a xk xv lgc) yk yv
        (.node Color.Black c2 zk zv d)) := by
  unfold okRight
  simp [hg]

theorem okRight_red_clean {K V : Type} {rc : Color} {g h a : NodeRef K V} {yk xk : K}
    {yv xv : V} (hgc : g.col ≠ Color.Red) (hhc : h.col ≠ Color.Red) :
    okRight rc a xk xv (.node Color.Red g yk yv h) = .fallthrough := by
  unfold okRight
  simp [hgc, hhc]

theorem okLeft_of_rb {K V : Type} {l : NodeRef K V} {cl : Color} {n : Nat}
    (hl : IsRB l cl n) (rc : Color) (zk : K) (zv : V) (d : NodeRef K V) :
    okLeft rc l zk zv d = .fallthrough := by
  cases hl with
  | leaf => unfold okLeft; simp
  | black h1 h2 => unfold okLeft; simp
  | red h1 h2 =>
    exact okLeft_red_clean (by rw [h1.col_eq]; simp) (by rw [h2.col_eq]; simp)

theorem okRight_of_rb {K V : Type} {r : NodeRef K V} {cr : Color} {n : Nat}
    (hr : IsRB r cr n) (rc : Color) (a : NodeRef K V) (xk : K) (xv : V) :
    okRight rc a xk xv r = .fallthrough := by
  cases hr with
  | leaf => unfold okRight; simp
  | black h1 h2 => unfold okRight; simp
  | red h1 h2 =>
    exact okRight_red_clean (by rw [h1.col_eq]; simp) (by rw [h2.col_eq]; simp)

theorem balance_red {K V : Type} (l : NodeRef K V) (k : K) (v : V) (r : NodeRef K V) :
    balance (.node Color.Red l k v r) = some (.node Color.Red l k v r) := by
  simp [balance, balanceBBCases]

/-- On a Black-rooted node, `balance` agrees with `balanceBlack`; this is the
fact that justifies using `balanceBlack` at the recursive call sites. -/
theorem balance_black_spec {K V : Type} (l : NodeRef K V) (k : K) (v : V)
    (r : NodeRef K V) :
    balance (.node Color.Black l k v r) = balanceBlack l k v r := by
  cases h : balanceOkasaki Color.Red l k v r with
  | fired t => simp [balance, balanceBlack, Color.dec, h]
  | abort => simp [balance, balanceBlack, Color.dec, h]
  | fallthrough => simp [balance, balanceBlack, balanceBBCases, Color.dec, h]

theorem balanceOkasaki_of_rb2 {K V : Type} {l r : NodeRef K V} {cl cr : Color}
    {n m : Nat} (hl : IsRB l cl n) (hr : IsRB r cr m) (rc : Color) (k : K) (v : V) :
    balanceOkasaki rc l k v r = .fallthrough := by
  unfold balanceOkasaki
  rw [okLeft_of_rb hl, okRight_of_rb hr]

theorem balanceBlack_left {K V : Type} {l r : NodeRef K V} (k : K) (v : V) {n : Nat}
    {cr : Color} (hl : AlmostRB l n) (hr : IsRB r cr n) :
    ∃ t c2, balanceBlack l k v r = some t ∧ IsRB t c2 (n + 1) ∧
      inorder t = inorder l ++ (k, v) :: inorder r := by
  rcases hl with ⟨cl, hl⟩ | ⟨g, yk, yv, h, cg, ch, rfl, hg, hh⟩
  · refine ⟨_, Color.Black, ?_, IsRB.black hl hr, rfl⟩
    unfold balanceBlack
    rw [balanceOkasaki_of_rb2 hl hr]
  · rcases hg.col_rb with rfl | rfl
    · cases hg with
      | @red a b2 xk2 xv2 m2 ha hb =>
        refine ⟨.node Color.Red (.node Color.Black a xk2 xv2 b2) yk yv
          (.node Color.Black h k v r), Color.Red, ?_, ?_, ?_⟩
        · unfold balanceBlack balanceOkasaki
          rw [okLeft_ll]
        · exact IsRB.red (IsRB.black ha hb) (IsRB.black hh hr)
        · simp
    · rcases hh.col_rb with rfl | rfl
      · cases hh with
        | @red b2 c2 mk2 mv2 m2 hb hc =>
          refine ⟨.node Color.Red (.node Color.Black g yk yv b2) mk2 mv2
            (.node Color.Black c2 k v r), Color.Red, ?_, ?_, ?_⟩
          · unfold balanceBlack balanceOkasaki
            rw [okLeft_lr (by rw [hg.col_eq]; simp)]
          · exact IsRB.red (IsRB.black hg hb) (IsRB.black hc hr)
          · simp
      · refine ⟨_, Color.Black, ?_, IsRB.black (IsRB.red hg hh) hr, rfl⟩
        unfold balanceBlack
        rw [balanceOkasaki_of_rb2 (IsRB.red hg hh) hr]

theorem balanceBlack_right {K V : Type} {l r : NodeRef K V} (k : K) (v : V) {n : Nat}
    {cl : Color} (hl : IsRB l cl n) (hr : AlmostRB r n) :
    ∃ t c2, balanceBlack l k v r = some t ∧ IsRB t c2 (n + 1) ∧
      inorder t = inorder l ++ (k, v) :: inorder r := by
  rcases hr with ⟨cr, hr⟩ | ⟨g, yk, yv, h, cg, ch, rfl, hg, hh⟩
  · refine ⟨_, Color.Black, ?_, IsRB.black hl hr, rfl⟩
    unfold balanceBlack
    rw [balanceOkasaki_of_rb2 hl hr]
  · rcases hg.col_rb with rfl | rfl
    · cases hg with
      | @red b2 c2 mk2 mv2 m2 hb hc =>
        refine ⟨.node Color.Red (.node Color.Black l k v b2) mk2 mv2
          (.node Color.Black c2 yk yv h), Color.Red, ?_, ?_, ?_⟩
        · unfold balanceBlack balanceOkasaki
          rw [okLeft_of_rb hl, okRight_rl]
        · exact IsRB.red (IsRB.black hl hb) (IsRB.black hc hh)
        · simp
    · rcases hh.col_rb with rfl | rfl
      · cases hh with
        | @red c2 d2 zk2 zv2 m2 hc hd =>
          refine ⟨.node Color.Red (.node Color.Black l k v g) yk yv
            (.node Color.Black c2 zk2 zv2 d2), Color.Red, ?_, ?_, ?_⟩
          · unfold balanceBlack balanceOkasaki
            rw [okLeft_of_rb hl, okRight_rr (by rw [hg.col_eq]; simp)]
          · exact IsRB.red (IsRB.black hl hg) (IsRB.black hc hd)
          · simp
      · refine ⟨_, Color.Black, ?_, IsRB.black hl (IsRB.red hg hh), rfl⟩
        unfold balanceBlack
        rw [balanceOkasaki_of_rb2 hl (IsRB.red hg hh)]

theorem balance_bb_eq {K V : Type} (l : NodeRef K V) (k : K) (v : V) (r : NodeRef K V) :
    balance (.node Color.DoubleBlack l k v r) =
      (match balanceOkasaki Color.Black l k v r with
       | .fired t => some t
       | .abort => none
       | .fallthrough => balanceBBCases Color.DoubleBlack l k v r) := by
  cases h : balanceOkasaki Color.Black l k v r <;> simp [balance, Color.dec, h]

theorem balanceNBLeftCase_not_nb {K V : Type} {c : Color} {l r : NodeRef K V} {k : K}
    {v : V} (hl : l.col ≠ Color.NegativeBlack) :
    balanceNBLeftCase c l k v r = some (.node c l k v r) := by
  unfold balanceNBLeftCase
  cases l with
  | leaf cc => cases cc <;> simp_all
  | node cc ll lk lv lr => cases cc <;> simp_all

theorem balanceBBCases_bb_not_nb {K V : Type} {l r : NodeRef K V} {k : K} {v : V}
    (hr : r.col ≠ Color.NegativeBlack) :
    balanceBBCases Color.DoubleBlack l k v r =
      balanceNBLeftCase Color.DoubleBlack l k v r := by
  unfold balanceBBCases
  rw [if_pos rfl]
  cases r with
  | leaf cc => cases cc <;> simp_all
  | node cc rl rk rv rr => cases cc <;> simp_all

theorem balance_bb_left {K V : Type} {l r : NodeRef K V} (k : K) (v : V) {m : Nat}
    (hl : AlmostRed l m ∨ NBShape l m) (hr : IsRB r Color.Black m) :
    ∃ t, balance (.node Color.DoubleBlack l k v r) = some t ∧ DelB t (m + 2) ∧
      inorder t = inorder l ++ (k, v) :: inorder r := by
  rw [balance_bb_eq]
  rcases hl with ⟨g, yk, yv, h, cg, ch, rfl, hg, hh⟩ | ⟨p, pk, pv, q, rfl, hp, hq⟩
  · rcases hg.col_rb with rfl | rfl
    · cases hg with
      | @red a b2 xk2 xv2 m2 ha hb =>
        have hOk : balanceOkasaki Color.Black
            (.node Color.Red (.node Color.Red a xk2 xv2 b2) yk yv h) k v r =
            .fired (.node Color.Black (.node Color.Black a xk2 xv2 b2) yk yv
              (.node Color.Black h k v r)) := by
          unfold balanceOkasaki
          rw [okLeft_ll]
        rw [hOk]
        exact ⟨_, rfl, ⟨DelRes.ok (IsRB.black (IsRB.black ha hb) (IsRB.black hh hr)),
          Or.inl rfl⟩, by simp⟩
    · rcases hh.col_rb with rfl | rfl
      · cases hh with
        | @red b2 c2 mk2 mv2 m2 hb hc =>
          have hOk : balanceOkasaki Color.Black
              (.node Color.Red g yk yv (.node Color.Red b2 mk2 mv2 c2)) k v r =
              .fired (.node Color.Black (.node Color.Black g yk yv b2) mk2 mv2
                (.node Color.Black c2 k v r)) := by
            unfold balanceOkasaki
            rw [okLeft_lr (by rw [hg.col_eq]; simp)]
          rw [hOk]
          exact ⟨_, rfl, ⟨DelRes.ok (IsRB.black (IsRB.black hg hb) (IsRB.black hc hr)),
            Or.inl rfl⟩, by simp⟩
      · have hrb : IsRB (.node Color.Red g yk yv h) Color.Red m := IsRB.red hg hh
        have hOk := balanceOkasaki_of_rb2 hrb hr Color.Black k v
        rw [hOk, balanceBBCases_bb_not_nb (by rw [hr.col_eq]; simp),
          balanceNBLeftCase_not_nb (by simp)]
        exact ⟨_, rfl, ⟨DelRes.bbNode hrb hr, Or.inr rfl⟩, rfl⟩
  · have hm : 1 ≤ m := hr.bh_pos
    have hOk : balanceOkasaki Color.Black (.node Color.NegativeBlack p pk pv q) k v r =
        .fallthrough := by
      unfold balanceOkasaki
      rw [okLeft_not_red (by simp), okRight_of_rb hr]
    rw [hOk, balanceBBCases_bb_not_nb (by rw [hr.col_eq]; simp)]
    cases hp with
    | leaf => omega
    | @black a b2 ak2 av2 m2 ca cb ha hb =>
      cases hq with
      | leaf => omega
      | @black b3 c3 yk2 yv2 m3 cb2 cc2 hq1 hq2 =>
        obtain ⟨inner, c', hbe, hbi, hbio⟩ :=
          balanceBlack_left pk pv (Or.inr ⟨a, ak2, av2, b2, ca, cb, rfl, ha, hb⟩) hq1
        refine ⟨.node Color.Black inner yk2 yv2 (.node Color.Black c3 k v r), ?_,
          ⟨DelRes.ok (IsRB.black hbi (IsRB.black hq2 hr)), Or.inl rfl⟩, ?_⟩
        · simp only [balanceNBLeftCase]
          rw [hbe]
          simp
        · simp [hbio]

theorem balance_bb_right {K V : Type} {l r : NodeRef K V} (k : K) (v : V) {m : Nat}
    (hl : IsRB l Color.Black m) (hr : AlmostRed r m ∨ NBShape r m) :
    ∃ t, balance (.node Color.DoubleBlack l k v r) = some t ∧ DelB t (m + 2) ∧
      inorder t = inorder l ++ (k, v) :: inorder r := by
  rw [balance_bb_eq]
  rcases hr with ⟨g, yk, yv, h, cg, ch, rfl, hg, hh⟩ | ⟨p, pk, pv, q, rfl, hp, hq⟩
  · rcases hg.col_rb with rfl | rfl
    · cases hg with
      | @red b2 c2 mk2 mv2 m2 hb hc =>
        have hOk : balanceOkasaki Color.Black l k v
            (.node Color.Red (.node Color.Red b2 mk2 mv2 c2) yk yv h) =
            .fired (.node Color.Black (.node Color.Black l k v b2) mk2 mv2
              (.node Color.Black c2 yk yv h)) := by
          unfold balanceOkasaki
          rw [okLeft_of_rb hl, okRight_rl]
        rw [hOk]
        exact ⟨_, rfl, ⟨DelRes.ok (IsRB.black (IsRB.black hl hb) (IsRB.black hc hh)),
          Or.inl rfl⟩, by simp⟩
    · rcases hh.col_rb with rfl | rfl
      · cases hh with
        | @red c2 d2 zk2 zv2 m2 hc hd =>
          have hOk : balanceOkasaki Color.Black l k v
              (.node Color.Red g yk yv (.node Color.Red c2 zk2 zv2 d2)) =
              .fired (.node Color.Black (.node Color.Black l k v g) yk yv
                (.node Color.Black c2 zk2 zv2 d2)) := by
            unfold balanceOkasaki
            rw [okLeft_of_rb hl, okRight_rr (by rw [hg.col_eq]; simp)]
          rw [hOk]
          exact ⟨_, rfl, ⟨DelRes.ok (IsRB.black (IsRB.black hl hg) (IsRB.black hc hd)),
            Or.inl rfl⟩, by simp⟩
      · have hrb : IsRB (.node Color.Red g yk yv h) Color.Red m := IsRB.red hg hh
        have hOk := balanceOkasaki_of_rb2 hl hrb Color.Black k v
        rw [hOk, balanceBBCases_bb_not_nb (by simp),
          balanceNBLeftCase_not_nb (by rw [hl.col_eq]; simp)]
        exact ⟨_, rfl, ⟨DelRes.bbNode hl hrb, Or.inr rfl⟩, rfl⟩
  · have hm : 1 ≤ m := hl.bh_pos
    have hOk : balanceOkasaki Color.Black l k v (.node Color.NegativeBlack p pk pv q) =
        .fallthrough := by
      unfold balanceOkasaki
      rw [okLeft_of_rb hl, okRight_not_red (by simp)]
    rw [hOk]
    cases hp with
    | leaf => omega
    | @black b2 c2 yk2 yv2 m2 cb cc hp1 hp2 =>
      cases hq with
      | leaf => omega
      | @black da db dk2 dv2 m3 ca2 cb2 hqa hqb =>
        obtain ⟨inner, c', hbe, hbi, hbio⟩ :=
          balanceBlack_right pk pv hp2 (Or.inr ⟨da, dk2, dv2, db, ca2, cb2, rfl, hqa, hqb⟩)
        refine ⟨.node Color.Black (.node Color.Black l k v b2) yk2 yv2 inner, ?_,
          ⟨DelRes.ok (IsRB.black (IsRB.black hl hp1) hbi), Or.inl rfl⟩, ?_⟩
        · simp only [balanceBBCases]
          rw [hbe]
          simp
        · simp [hbio]

/-! ## Insertion -/

theorem modifyAtRec_spec {K V : Type} [LinearOrder K] (key : K) (val : V) :
    ∀ {t : NodeRef K V} {c : Color} {n : Nat}, IsRB t c n → SortedKV (inorder t) →
    ∃ t' cnt, modifyAtRec t key val = some (t', cnt) ∧
      inorder t' = insList (inorder t) key val ∧
      (t.find key = none → cnt = 1) ∧ (t.find key ≠ none → cnt = 0) ∧
      (c = Color.Red → AlmostRed t' n) ∧ (c ≠ Color.Red → ∃ c', IsRB t' c' n) := by
  intro t
  induction t with
  | leaf cc =>
    intro c n ht _
    cases ht with
    | leaf =>
      refine ⟨.node Color.Red (.leaf Color.Black) key val (.leaf Color.Black), 1,
        by simp [modifyAtRec], by simp [insList], fun _ => rfl, ?_, ?_, ?_⟩
      · intro hne; simp [NodeRef.find] at hne
      · intro hc; cases hc
      · intro _; exact ⟨Color.Red, IsRB.red IsRB.leaf IsRB.leaf⟩
  | node cc l k v r ihl ihr =>
    intro c n ht hs
    rw [inorder_node] at hs
    obtain ⟨hsL, hsR, hLk, hkR⟩ := sortedKV_middle.mp hs
    rcases lt_trichotomy key k with hlt | heq | hgt
    · cases ht with
      | @black _ _ _ _ n0 cl2 cr2 hcl hcr =>
        obtain ⟨l', cnt, hle, hlio, hcnt1, hcnt0, hred, hblack⟩ := ihl hcl hsL
        have hArb : AlmostRB l' n0 := by
          rcases hcl.col_rb with rfl | rfl
          · exact Or.inr (hred rfl)
          · exact Or.inl (hblack (by simp))
        obtain ⟨t', c2, hbe, hbi, hbio⟩ := balanceBlack_left k v hArb hcr
        refine ⟨t', cnt, ?_, ?_, ?_, ?_, ?_, ?_⟩
        · simp only [modifyAtRec, if_pos hlt, hle, balance_black_spec, hbe]
        · rw [hbio, hlio, inorder_node]
          exact (insList_append_lt hlt _ _ _ _).symm
        · intro h
          rw [NodeRef.find, if_pos hlt] at h
          exact hcnt1 h
        · intro h
          rw [NodeRef.find, if_pos hlt] at h
          exact hcnt0 h
        · intro hc; cases hc
        · intro _; exact ⟨c2, hbi⟩
      | red hcl hcr =>
        obtain ⟨l', cnt, hle, hlio, hcnt1, hcnt0, hred, hblack⟩ := ihl hcl hsL
        obtain ⟨c', hl'⟩ := hblack (by simp)
        refine ⟨.node Color.Red l' k v r, cnt, ?_, ?_, ?_, ?_, ?_, ?_⟩
        · simp only [modifyAtRec, if_pos hlt, hle, balance_red]
        · rw [inorder_node, inorder_node, hlio]
          exact (insList_append_lt hlt _ _ _ _).symm
        · intro h
          rw [NodeRef.find, if_pos hlt] at h
          exact hcnt1 h
        · intro h
          rw [NodeRef.find, if_pos hlt] at h
          exact hcnt0 h
        · intro _; exact ⟨l', k, v, r, c', Color.Black, rfl, hl', hcr⟩
        · intro hne; exact absurd rfl hne
    · subst heq
      have hfind : (NodeRef.node cc l key v r).find key = some v := by
        rw [NodeRef.find, if_neg (lt_irrefl key), if_neg (lt_irrefl key)]
      have hio : inorder l ++ (key, val) :: inorder r =
          insList (inorder l ++ (key, v) :: inorder r) key val :=
        (insList_append_eq hLk _ _ _).symm
      cases ht with
      | black hcl hcr =>
        refine ⟨.node Color.Black l key val r, 0, ?_, ?_, ?_, fun _ => rfl, ?_, ?_⟩
        · simp [modifyAtRec]
        · rw [inorder_node, inorder_node]
          exact hio
        · intro h; rw [hfind] at h; cases h
        · intro hc; cases hc
        · intro _; exact ⟨Color.Black, IsRB.black hcl hcr⟩
      | red hcl hcr =>
        refine ⟨.node Color.Red l key val r, 0, ?_, ?_, ?_, fun _ => rfl, ?_, ?_⟩
        · simp [modifyAtRec]
        · rw [inorder_node, inorder_node]
          exact hio
        · intro h; rw [hfind] at h; cases h
        · intro _; exact ⟨l, key, val, r, Color.Black, Color.Black, rfl, hcl, hcr⟩
        · intro hne; exact absurd rfl hne
    · have hfind : ∀ o, (NodeRef.node cc l k v r).find key = o ↔ r.find key = o := by
        intro o
        rw [NodeRef.find, if_neg (not_lt_of_gt hgt), if_pos hgt]
      have hLkey : ∀ p ∈ inorder l, p.1 < key := fun p hp => lt_trans (hLk p hp) hgt
      cases ht with
      | @black _ _ _ _ n0 cl2 cr2 hcl hcr =>
        obtain ⟨r', cnt, hre, hrio, hcnt1, hcnt0, hred, hblack⟩ := ihr hcr hsR
        have hArb : AlmostRB r' n0 := by
          rcases hcr.col_rb with rfl | rfl
          · exact Or.inr (hred rfl)
          · exact Or.inl (hblack (by simp))
        obtain ⟨t', c2, hbe, hbi, hbio⟩ := balanceBlack_right k v hcl hArb
        refine ⟨t', cnt, ?_, ?_, ?_, ?_, ?_, ?_⟩
        · simp only [modifyAtRec, if_neg (not_lt_of_gt hgt), if_pos hgt, hre,
            balance_black_spec, hbe]
        · rw [hbio, hrio, inorder_node]
          exact (insList_append_gt hLkey hgt _ _ _).symm
        · intro h; exact hcnt1 ((hfind none).mp h)
        · intro h
          exact hcnt0 (fun hc => h ((hfind none).mpr hc))
        · intro hc; cases hc
        · intro _; exact ⟨c2, hbi⟩
      | red hcl hcr =>
        obtain ⟨r', cnt, hre, hrio, hcnt1, hcnt0, hred, hblack⟩ := ihr hcr hsR
        obtain ⟨c', hr'⟩ := hblack (by simp)
        refine ⟨.node Color.Red l k v r', cnt, ?_, ?_, ?_, ?_, ?_, ?_⟩
        · simp only [modifyAtRec, if_neg (not_lt_of_gt hgt), if_pos hgt, hre, balance_red]
        · rw [inorder_node, inorder_node, hrio]
          exact (insList_append_gt hLkey hgt _ _ _).symm
        · intro h; exact hcnt1 ((hfind none).mp h)
        · intro h
          exact hcnt0 (fun hc => h ((hfind none).mpr hc))
        · intro _; exact ⟨l, k, v, r', Color.Black, c', rfl, hcl, hr'⟩
        · intro hne; exact absurd rfl hne

theorem blacken_col {K V : Type} (t : NodeRef K V) : (blacken t).col = Color.Black := by
  cases t <;> rfl

theorem inorder_blacken {K V : Type} (t : NodeRef K V) :
    inorder (blacken t) = inorder t := by
  cases t <;> rfl

theorem blacken_rb {K V : Type} {t : NodeRef K V} {c : Color} {n : Nat}
    (h : IsRB t c n) : ∃ n', IsRB (blacken t) Color.Black n' := by
  cases h with
  | leaf => exact ⟨1, IsRB.leaf⟩
  | black h1 h2 => exact ⟨_, IsRB.black h1 h2⟩
  | red h1 h2 => exact ⟨_, IsRB.black h1 h2⟩

theorem blacken_almost {K V : Type} {t : NodeRef K V} {n : Nat} (h : AlmostRed t n) :
    IsRB (blacken t) Color.Black (n + 1) := by
  obtain ⟨l, k, v, r, cl, cr, rfl, hl, hr⟩ := h
  exact IsRB.black hl hr

theorem modifyAt_spec {K V : Type} [LinearOrder K] {t : NodeRef K V} {c : Color}
    {n : Nat} (key : K) (val : V) (ht : IsRB t c n) (hs : SortedKV (inorder t)) :
    ∃ t' cnt, modifyAt t key val = some (t', cnt) ∧
      inorder t' = insList (inorder t) key val ∧
      (t.find key = none → cnt = 1) ∧ (t.find key ≠ none → cnt = 0) ∧
      ∃ n', IsRB t' Color.Black n' := by
  obtain ⟨t0, cnt, he, hio, h1, h0, hred, hblack⟩ := modifyAtRec_spec key val ht hs
  have hb : ∃ n', IsRB (blacken t0) Color.Black n' := by
    rcases ht.col_rb with rfl | rfl
    · exact ⟨_, blacken_almost (hred rfl)⟩
    · obtain ⟨c', hc'⟩ := hblack (by simp)
      exact blacken_rb hc'
  refine ⟨t0.blacken, cnt, ?_, ?_, h1, h0, hb⟩
  · simp only [modifyAt, he]
  · rw [inorder_blacken]
    exact hio

/-! ## Conversion between `IsRB` and the specification-level invariants -/

theorem invariants_to_isrb {K V : Type} {t : NodeRef K V} {n : Nat}
    (hpc : PersistedColors t) (hnr : NoRedRedInv t) (hbh : EqualBH t n) :
    IsRB t t.col n := by
  induction t generalizing n with
  | leaf cc =>
    rw [PersistedColors] at hpc
    rw [EqualBH] at hbh
    subst hpc hbh
    exact IsRB.leaf
  | node cc l k v r ihl ihr =>
    rw [PersistedColors] at hpc
    rw [NoRedRedInv] at hnr
    rw [EqualBH] at hbh
    obtain ⟨hcc, hpl, hpr⟩ := hpc
    obtain ⟨hrr, hnl, hnr2⟩ := hnr
    obtain ⟨m, hbl, hbr, hn⟩ := hbh
    have hl := ihl hpl hnl hbl
    have hr := ihr hpr hnr2 hbr
    rcases hcc with rfl | rfl
    · obtain ⟨hlc, hrc⟩ := hrr rfl
      have hlb : l.col = Color.Black := by
        rcases hl.col_rb with h | h
        · exact absurd h hlc
        · exact h
      have hrb : r.col = Color.Black := by
        rcases hr.col_rb with h | h
        · exact absurd h hrc
        · exact h
      rw [if_neg (by simp)] at hn
      subst hn
      rw [NodeRef.col_node, zero_add]
      exact IsRB.red (hlb ▸ hl) (hrb ▸ hr)
    · rw [if_pos rfl] at hn
      subst hn
      rw [NodeRef.col_node, add_comm]
      exact IsRB.black hl hr

theorem isrb_to_invariants {K V : Type} {t : NodeRef K V} {c : Color} {n : Nat}
    (h : IsRB t c n) : PersistedColors t ∧ NoRedRedInv t ∧ EqualBH t n := by
  induction h with
  | leaf => exact ⟨rfl, trivial, rfl⟩
  | @black l r k v m cl cr hl hr ihl ihr =>
    refine ⟨?_, ?_, ?_⟩
    · rw [PersistedColors]
      exact ⟨Or.inr rfl, ihl.1, ihr.1⟩
    · rw [NoRedRedInv]
      exact ⟨fun hc => (nomatch hc), ihl.2.1, ihr.2.1⟩
    · rw [EqualBH]
      exact ⟨m, ihl.2.2, ihr.2.2, by simp [Nat.add_comm]⟩
  | @red l r k v m hl hr ihl ihr =>
    refine ⟨?_, ?_, ?_⟩
    · rw [PersistedColors]
      exact ⟨Or.inl rfl, ihl.1, ihr.1⟩
    · rw [NoRedRedInv]
      exact ⟨fun _ => ⟨(by rw [hl.col_eq]; simp), (by rw [hr.col_eq]; simp)⟩,
        ihl.2.1, ihr.2.1⟩
    · rw [EqualBH]
      exact ⟨m, ihl.2.2, ihr.2.2, by simp⟩

theorem isrb_countBlackHeight {K V : Type} {t : NodeRef K V} {c : Color} {n : Nat}
    (h : IsRB t c n) (combine : Nat → Nat → Nat) (hc : ∀ a, combine a a = a) :
    countBlackHeight combine t = some n := by
  induction h with
  | leaf => simp [countBlackHeight]
  | black hl hr ihl ihr =>
    simp [countBlackHeight, ihl, ihr, hc]
    omega
  | red hl hr ihl ihr => simp [countBlackHeight, ihl, ihr, hc]

theorem isrb_blackBalanced {K V : Type} {t : NodeRef K V} {c : Color} {n : Nat}
    (h : IsRB t c n) : blackBalanced t = some true := by
  unfold blackBalanced
  rw [isrb_countBlackHeight h max (fun a => max_self a),
    isrb_countBlackHeight h min (fun a => min_self a)]
  simp

theorem isrb_noRedRed {K V : Type} {t : NodeRef K V} {c : Color} {n : Nat}
    (h : IsRB t c n) : noRedRed t = some true := by
  induction h with
  | leaf => simp [noRedRed]
  | @black l r k v m cl cr hl hr ihl ihr =>
    have h1 : l.col = Color.Red ∨ l.col = Color.Black := by
      rw [hl.col_eq]; exact hl.col_rb
    have h2 : r.col = Color.Red ∨ r.col = Color.Black := by
      rw [hr.col_eq]; exact hr.col_rb
    simp [noRedRed, ihl, ihr, h1, h2]
  | @red l r k v m hl hr ihl ihr =>
    simp [noRedRed, ihl, ihr, hl.col_eq, hr.col_eq]

/-! ## Deletion -/

theorem findMaxKvp_spec {K V : Type} :
    ∀ {t : NodeRef K V}, t.isLeaf = false →
    ∃ p L0, findMaxKvp t = some p ∧ inorder t = L0 ++ [p] := by
  intro t
  induction t with
  | leaf c => intro h; simp at h
  | node c l k v r ihl ihr =>
    intro _
    by_cases hrl : r.isLeaf = true
    · have hre : inorder r = [] := by
        cases r with
        | leaf _ => rfl
        | node _ _ _ _ _ => simp at hrl
      refine ⟨(k, v), inorder l, ?_, ?_⟩
      · rw [findMaxKvp, if_pos hrl]
      · rw [inorder_node, hre]
    · obtain ⟨p, L0, hfe, hio⟩ := ihr (by simpa using hrl)
      refine ⟨p, inorder l ++ (k, v) :: L0, ?_, ?_⟩
      · rw [findMaxKvp, if_neg hrl]
        exact hfe
      · rw [inorder_node, hio]
        simp

theorem DelRes.bb_two {K V : Type} {l : NodeRef K V} {n : Nat} (h : DelRes l n)
    (hbb : l.col = Color.DoubleBlack) : 2 ≤ n := by
  cases h with
  | ok hIs =>
    rcases hIs.col_rb with rfl | rfl <;> rw [hIs.col_eq] at hbb <;> cases hbb
  | bbLeaf => omega
  | bbNode hl2 hr2 => omega

/-- Decrementing a DoubleBlack-rooted deletion intermediate yields a valid
Black-rooted tree one level shorter. -/
theorem decNode_of_bb {K V : Type} {l : NodeRef K V} {n : Nat} (h : DelRes l n)
    (hbb : l.col = Color.DoubleBlack) :
    ∃ l2, decNode l = some l2 ∧ IsRB l2 Color.Black (n - 1) ∧
      inorder l2 = inorder l := by
  cases h with
  | ok hIs =>
    rcases hIs.col_rb with rfl | rfl <;> rw [hIs.col_eq] at hbb <;> cases hbb
  | bbLeaf =>
    exact ⟨.leaf Color.Black, by simp [decNode, Color.dec], IsRB.leaf, rfl⟩
  | @bbNode l2 r2 k2 v2 m cl2 cr2 hl2 hr2 =>
    exact ⟨.node Color.Black l2 k2 v2 r2, by simp [decNode, Color.dec],
      IsRB.black hl2 hr2, rfl⟩

/-- Decrementing the (valid) sibling of a DoubleBlack node: a Black root
becomes a possibly red-red Red node, a Red root becomes the NegativeBlack
shape that `balance` eliminates. -/
theorem decNode_sibling {K V : Type} {r : NodeRef K V} {cr : Color} {n : Nat}
    (hr : IsRB r cr n) (hn : 2 ≤ n) :
    ∃ r2, decNode r = some r2 ∧ inorder r2 = inorder r ∧
      (cr = Color.Black → AlmostRed r2 (n - 1)) ∧
      (cr = Color.Red → NBShape r2 (n - 1)) := by
  cases hr with
  | leaf => omega
  | @black a b rk rv m ca cb ha hb =>
    refine ⟨.node Color.Red a rk rv b, by simp [decNode, Color.dec], rfl, ?_, ?_⟩
    · intro _
      exact ⟨a, rk, rv, b, ca, cb, rfl, ha, hb⟩
    · intro hcc; cases hcc
  | @red a b rk rv m ha hb =>
    have hsub : n - 1 + 1 = n := by omega
    refine ⟨.node Color.NegativeBlack a rk rv b, by simp [decNode, Color.dec], rfl, ?_, ?_⟩
    · intro hcc; cases hcc
    · intro _
      exact ⟨a, rk, rv, b, rfl, hsub.symm ▸ ha, hsub.symm ▸ hb⟩

theorem bubble_spec_left {K V : Type} {l r : NodeRef K V} (c : Color) (k : K) (v : V)
    {n : Nat} {cr : Color} (hl : DelRes l n) (hr : IsRB r cr n)
    (hcred : c = Color.Red →
      (l.col = Color.Black ∨ l.col = Color.DoubleBlack) ∧ cr = Color.Black)
    (hc : c = Color.Red ∨ c = Color.Black) :
    ∃ t, bubble c l k v r = some t ∧
      inorder t = inorder l ++ (k, v) :: inorder r ∧
      (c = Color.Red → ∃ c2, IsRB t c2 n) ∧
      (c = Color.Black → DelB t (n + 1)) := by
  by_cases hbb : l.col = Color.DoubleBlack
  · have hn2 : 2 ≤ n := hl.bb_two hbb
    have hsub : n - 1 + 1 = n := by omega
    obtain ⟨l2, hld, hli, hlio⟩ := decNode_of_bb hl hbb
    obtain ⟨r2, hrd, hrio, hrB, hrR⟩ := decNode_sibling hr hn2
    rcases hc with rfl | rfl
    · obtain ⟨_, rfl⟩ := hcred rfl
      obtain ⟨t, c2, hte, hti, htio⟩ := balanceBlack_right k v hli (Or.inr (hrB rfl))
      refine ⟨t, ?_, ?_, ?_, ?_⟩
      · unfold bubble
        rw [if_pos (Or.inl hbb)]
        rw [show (Color.Red.inc : Option Color) = some Color.Black from rfl, hld, hrd]
        show balance (.node Color.Black l2 k v r2) = some t
        rw [balance_black_spec]
        exact hte
      · rw [htio, hlio, hrio]
      · intro _
        exact ⟨c2, hsub ▸ hti⟩
      · intro hcc; cases hcc
    · have hrab : AlmostRed r2 (n - 1) ∨ NBShape r2 (n - 1) := by
        rcases hr.col_rb with rfl | rfl
        · exact Or.inr (hrR rfl)
        · exact Or.inl (hrB rfl)
      obtain ⟨t, hte, htDel, htio⟩ := balance_bb_right k v hli hrab
      refine ⟨t, ?_, ?_, ?_, ?_⟩
      · unfold bubble
        rw [if_pos (Or.inl hbb)]
        rw [show (Color.Black.inc : Option Color) = some Color.DoubleBlack from rfl,
          hld, hrd]
        show balance (.node Color.DoubleBlack l2 k v r2) = some t
        exact hte
      · rw [htio, hlio, hrio]
      · intro hcc; cases hcc
      · intro _
        have harith : n - 1 + 2 = n + 1 := by omega
        rw [← harith]
        exact htDel
  · have hrnotbb : r.col ≠ Color.DoubleBlack := by
      rw [hr.col_eq]; rcases hr.col_rb with rfl | rfl <;> simp
    have hIs : ∃ cl, IsRB l cl n := by
      cases hl with
      | ok hIs2 => exact ⟨_, hIs2⟩
      | bbLeaf => exact absurd rfl hbb
      | bbNode hl2 hr2 => exact absurd rfl hbb
    obtain ⟨cl, hIs⟩ := hIs
    refine ⟨.node c l k v r, ?_, rfl, ?_, ?_⟩
    · unfold bubble
      rw [if_neg (by push_neg; exact ⟨hbb, hrnotbb⟩)]
    · rintro rfl
      obtain ⟨hcol, rfl⟩ := hcred rfl
      have hlb : l.col = Color.Black := by
        rcases hcol with h | h
        · exact h
        · exact absurd h hbb
      rw [hIs.col_eq] at hlb
      subst hlb
      exact ⟨Color.Red, IsRB.red hIs hr⟩
    · rintro rfl
      exact ⟨DelRes.ok (IsRB.black hIs hr), Or.inl rfl⟩

theorem bubble_spec_right {K V : Type} {l r : NodeRef K V} (c : Color) (k : K) (v : V)
    {n : Nat} {cl : Color} (hl : IsRB l cl n) (hr : DelRes r n)
    (hcred : c = Color.Red →
      (r.col = Color.Black ∨ r.col = Color.DoubleBlack) ∧ cl = Color.Black)
    (hc : c = Color.Red ∨ c = Color.Black) :
    ∃ t, bubble c l k v r = some t ∧
      inorder t = inorder l ++ (k, v) :: inorder r ∧
      (c = Color.Red → ∃ c2, IsRB t c2 n) ∧
      (c = Color.Black → DelB t (n + 1)) := by
  by_cases hbb : r.col = Color.DoubleBlack
  · have hn2 : 2 ≤ n := hr.bb_two hbb
    have hsub : n - 1 + 1 = n := by omega
    obtain ⟨r2, hrd, hri, hrio⟩ := decNode_of_bb hr hbb
    obtain ⟨l2, hld, hlio, hlB, hlR⟩ := decNode_sibling hl hn2
    rcases hc with rfl | rfl
    · obtain ⟨_, rfl⟩ := hcred rfl
      obtain ⟨t, c2, hte, hti, htio⟩ := balanceBlack_left k v (Or.inr (hlB rfl)) hri
      refine ⟨t, ?_, ?_, ?_, ?_⟩
      · unfold bubble
        rw [if_pos (Or.inr hbb)]
        rw [show (Color.Red.inc : Option Color) = some Color.Black from rfl, hld, hrd]
        show balance (.node Color.Black l2 k v r2) = some t
        rw [balance_black_spec]
        exact hte
      · rw [htio, hlio, hrio]
      · intro _
        exact ⟨c2, hsub ▸ hti⟩
      · intro hcc; cases hcc
    · have hlab : AlmostRed l2 (n - 1) ∨ NBShape l2 (n - 1) := by
        rcases hl.col_rb with rfl | rfl
        · exact Or.inr (hlR rfl)
        · exact Or.inl (hlB rfl)
      obtain ⟨t, hte, htDel, htio⟩ := balance_bb_left k v hlab hri
      refine ⟨t, ?_, ?_, ?_, ?_⟩
      · unfold bubble
        rw [if_pos (Or.inr hbb)]
        rw [show (Color.Black.inc : Option Color) = some Color.DoubleBlack from rfl,
          hld, hrd]
        show balance (.node Color.DoubleBlack l2 k v r2) = some t
        exact hte
      · rw [htio, hlio, hrio]
      · intro hcc; cases hcc
      · intro _
        have harith : n - 1 + 2 = n + 1 := by omega
        rw [← harith]
        exact htDel
  · have hlnotbb : l.col ≠ Color.DoubleBlack := by
      rw [hl.col_eq]; rcases hl.col_rb with rfl | rfl <;> simp
    have hIs : ∃ cr, IsRB r cr n := by
      cases hr with
      | ok hIs2 => exact ⟨_, hIs2⟩
      | bbLeaf => exact absurd rfl hbb
      | bbNode hl2 hr2 => exact absurd rfl hbb
    obtain ⟨cr, hIs⟩ := hIs
    refine ⟨.node c l k v r, ?_, rfl, ?_, ?_⟩
    · unfold bubble
      rw [if_neg (by push_neg; exact ⟨hlnotbb, hbb⟩)]
    · rintro rfl
      obtain ⟨hcol, rfl⟩ := hcred rfl
      have hrb : r.col = Color.Black := by
        rcases hcol with h | h
        · exact h
        · exact absurd h hbb
      rw [hIs.col_eq] at hrb
      subst hrb
      exact ⟨Color.Red, IsRB.red hl hIs⟩
    · rintro rfl
      exact ⟨DelRes.ok (IsRB.black hl hIs), Or.inl rfl⟩

theorem nsize_pos {K V : Type} (t : NodeRef K V) : 1 ≤ nsize t := by
  cases t <;> rw [nsize] <;> omega

theorem delete_aux {K V : Type} : ∀ N : Nat,
    (∀ (c : Color) (l : NodeRef K V) (k : K) (v : V) (r : NodeRef K V) {n : Nat},
      nsize (NodeRef.node c l k v r) ≤ N →
      IsRB (.node c l k v r) c n →
      ∃ t2, removeNode (.node c l k v r) = some t2 ∧
        inorder t2 = inorder l ++ inorder r ∧
        (c = Color.Red → ∃ c2, IsRB t2 c2 n) ∧
        (c = Color.Black → DelB t2 n)) ∧
    (∀ (t : NodeRef K V) {c : Color} {n : Nat},
      nsize t ≤ N → IsRB t c n → t.isLeaf = false →
      ∃ t2 p, removeMax t = some t2 ∧ findMaxKvp t = some p ∧
        inorder t = inorder t2 ++ [p] ∧
        (c = Color.Red → ∃ c2, IsRB t2 c2 n) ∧
        (c = Color.Black → DelB t2 n)) := by
  intro N
  induction N with
  | zero =>
    constructor
    · intro c l k v r n hsz _
      exfalso
      rw [nsize] at hsz
      have h1 := nsize_pos l
      have h2 := nsize_pos r
      omega
    · intro t c n hsz _ _
      exfalso
      have h1 := nsize_pos t
      omega
  | succ N ih =>
    obtain ⟨ihRN, ihRM⟩ := ih
    have hRN : ∀ (c : Color) (l : NodeRef K V) (k : K) (v : V) (r : NodeRef K V)
        {n : Nat}, nsize (NodeRef.node c l k v r) ≤ N + 1 →
        IsRB (.node c l k v r) c n →
        ∃ t2, removeNode (.node c l k v r) = some t2 ∧
          inorder t2 = inorder l ++ inorder r ∧
          (c = Color.Red → ∃ c2, IsRB t2 c2 n) ∧
          (c = Color.Black → DelB t2 n) := by
      intro c l k v r n hsz hrb
      have hszl : nsize l ≤ N := by
        have := nsize_pos r
        simp [nsize] at hsz
        omega
      cases hrb with
      | @red l r k v _ hl hr =>
        cases hl with
        | leaf =>
          cases hr with
          | leaf =>
            refine ⟨.leaf Color.Black, ?_, rfl, ?_, ?_⟩
            · simp [removeNode, newLeaf]
            · intro _; exact ⟨Color.Black, IsRB.leaf⟩
            · intro hcc; cases hcc
          | black h1 h2 => exact absurd h1.bh_pos (by omega)
        | @black la lb lk lv m1 ca cb hla hlb =>
          cases hr with
          | leaf => exact absurd hla.bh_pos (by omega)
          | @black ra rb rk2 rv2 m2 ca2 cb2 hra hrb2 =>
            -- both children are non-leaf Black nodes
            obtain ⟨l2, p, hrm, hfm, hio, hcR, hcB⟩ :=
              ihRM _ hszl (IsRB.black hla hlb) rfl
            have hDel := hcB rfl
            obtain ⟨t, hbe, hbio, hbR, hbB⟩ :=
              bubble_spec_left Color.Red p.1 p.2 hDel.1 (IsRB.black hra hrb2)
                (fun _ => ⟨hDel.2, rfl⟩) (Or.inl rfl)
            refine ⟨t, ?_, ?_, ?_, ?_⟩
            · simp only [removeNode, NodeRef.isLeaf_node, NodeRef.col_node]
              simp only [hfm, hrm]
              simp
              exact hbe
            · rw [hbio, hio]
              simp
            · intro _; exact hbR rfl
            · intro hcc; cases hcc
      | @black l r k v m cl cr hl hr =>
        cases hl with
        | leaf =>
          cases hr with
          | leaf =>
            refine ⟨.leaf Color.DoubleBlack, ?_, rfl, ?_, ?_⟩
            · simp [removeNode, newLeaf]
            · intro hcc; cases hcc
            · intro _; exact ⟨DelRes.bbLeaf, Or.inr rfl⟩
          | @black ra rb rk2 rv2 m2 ca2 cb2 hra hrb2 =>
            exact absurd hra.bh_pos (by omega)
          | @red ra rb rk2 rv2 m2 hra hrb2 =>
            -- Black node, left leaf, right Red: promote the Red child to Black
            refine ⟨.node Color.Black ra rk2 rv2 rb, ?_, by simp, ?_, ?_⟩
            · simp [removeNode]
            · intro hcc; cases hcc
            · intro _; exact ⟨DelRes.ok (IsRB.black hra hrb2), Or.inl rfl⟩
        | @black la lb lk lv m1 ca cb hla hlb =>
          cases hr with
          | leaf => exact absurd hla.bh_pos (by omega)
          | @black ra rb rk2 rv2 m2 ca2 cb2 hra hrb2 =>
            obtain ⟨l2, p, hrm, hfm, hio, hcR, hcB⟩ :=
              ihRM _ hszl (IsRB.black hla hlb) rfl
            have hDel := (hcB rfl).1
            obtain ⟨t, hbe, hbio, hbR, hbB⟩ :=
              bubble_spec_left Color.Black p.1 p.2 hDel (IsRB.black hra hrb2)
                (fun hcc => (nomatch hcc)) (Or.inr rfl)
            refine ⟨t, ?_, ?_, ?_, ?_⟩
            · simp only [removeNode, NodeRef.isLeaf_node, NodeRef.col_node]
              simp only [hfm, hrm]
              simp
              exact hbe
            · rw [hbio, hio]
              simp
            · intro hcc; cases hcc
            · intro _
              exact hbB rfl
          | @red ra rb rk2 rv2 m2 hra hrb2 =>
            obtain ⟨l2, p, hrm, hfm, hio, hcR, hcB⟩ :=
              ihRM _ hszl (IsRB.black hla hlb) rfl
            have hDel := (hcB rfl).1
            obtain ⟨t, hbe, hbio, hbR, hbB⟩ :=
              bubble_spec_left Color.Black p.1 p.2 hDel (IsRB.red hra hrb2)
                (fun hcc => (nomatch hcc)) (Or.inr rfl)
            refine ⟨t, ?_, ?_, ?_, ?_⟩
            · simp only [removeNode, NodeRef.isLeaf_node, NodeRef.col_node]
              simp only [hfm, hrm]
              simp
              exact hbe
            · rw [hbio, hio]
              simp
            · intro hcc; cases hcc
            · intro _
              exact hbB rfl
        | @red la lb lk lv m1 hla hlb =>
          cases hr with
          | leaf =>
            -- Black node, left Red, right leaf: promote the Red child to Black
            refine ⟨.node Color.Black la lk lv lb, ?_, by simp, ?_, ?_⟩
            · simp [removeNode]
            · intro hcc; cases hcc
            · intro _; exact ⟨DelRes.ok (IsRB.black hla hlb), Or.inl rfl⟩
          | @black ra rb rk2 rv2 m2 ca2 cb2 hra hrb2 =>
            obtain ⟨l2, p, hrm, hfm, hio, hcR, hcB⟩ :=
              ihRM _ hszl (IsRB.red hla hlb) rfl
            obtain ⟨c2, hc2⟩ := hcR rfl
            obtain ⟨t, hbe, hbio, hbR, hbB⟩ :=
              bubble_spec_left Color.Black p.1 p.2 (DelRes.ok hc2)
                (IsRB.black hra hrb2) (fun hcc => (nomatch hcc)) (Or.inr rfl)
            refine ⟨t, ?_, ?_, ?_, ?_⟩
            · simp only [removeNode, NodeRef.isLeaf_node, NodeRef.col_node]
              simp only [hfm, hrm]
              simp
              exact hbe
            · rw [hbio, hio]
              simp
            · intro hcc; cases hcc
            · intro _
              exact hbB rfl
          | @red ra rb rk2 rv2 m2 hra hrb2 =>
            obtain ⟨l2, p, hrm, hfm, hio, hcR, hcB⟩ :=
              ihRM _ hszl (IsRB.red hla hlb) rfl
            obtain ⟨c2, hc2⟩ := hcR rfl
            obtain ⟨t, hbe, hbio, hbR, hbB⟩ :=
              bubble_spec_left Color.Black p.1 p.2 (DelRes.ok hc2)
                (IsRB.red hra hrb2) (fun hcc => (nomatch hcc)) (Or.inr rfl)
            refine ⟨t, ?_, ?_, ?_, ?_⟩
            · simp only [removeNode, NodeRef.isLeaf_node, NodeRef.col_node]
              simp only [hfm, hrm]
              simp
              exact hbe
            · rw [hbio, hio]
              simp
            · intro hcc; cases hcc
            · intro _
              exact hbB rfl
    refine ⟨hRN, ?_⟩
    intro t c n hsz hrb hleaf
    cases hrb with
    | leaf => simp at hleaf
    | @black l r k v m cl cr hl hr =>
      by_cases hrl : r.isLeaf = true
      · have hre : inorder r = [] := by
          cases r with
          | leaf _ => rfl
          | node _ _ _ _ _ => simp at hrl
        obtain ⟨t2, hrne, hio2, hcR, hcB⟩ := hRN Color.Black l k v r hsz (IsRB.black hl hr)
        refine ⟨t2, (k, v), ?_, ?_, ?_, ?_, ?_⟩
        · rw [removeMax, if_pos hrl]
          exact hrne
        · rw [findMaxKvp, if_pos hrl]
        · rw [inorder_node, hre, hio2, hre]
          simp
        · intro hcc; cases hcc
        · exact hcB
      · have hszr : nsize r ≤ N := by
          have := nsize_pos l
          simp [nsize] at hsz
          omega
        obtain ⟨r2, p, hrm, hfm, hio2, hcR, hcB⟩ :=
          ihRM r hszr hr (by simpa using hrl)
        have hDel : DelRes r2 m := by
          rcases hr.col_rb with rfl | rfl
          · obtain ⟨c2, hc2⟩ := hcR rfl
            exact DelRes.ok hc2
          · exact (hcB rfl).1
        obtain ⟨t3, hbe, hbio, hbR, hbB⟩ :=
          bubble_spec_right Color.Black k v hl hDel
            (fun hcc => (nomatch hcc)) (Or.inr rfl)
        refine ⟨t3, p, ?_, ?_, ?_, ?_, ?_⟩
        · rw [removeMax, if_neg hrl, hrm]
          exact hbe
        · rw [findMaxKvp, if_neg hrl]
          exact hfm
        · rw [inorder_node, hio2, hbio]
          simp
        · intro hcc; cases hcc
        · intro _
          exact hbB rfl
    | @red l r k v m hl hr =>
      by_cases hrl : r.isLeaf = true
      · have hre : inorder r = [] := by
          cases r with
          | leaf _ => rfl
          | node _ _ _ _ _ => simp at hrl
        obtain ⟨t2, hrne, hio2, hcR, hcB⟩ := hRN Color.Red l k v r hsz (IsRB.red hl hr)
        refine ⟨t2, (k, v), ?_, ?_, ?_, ?_, ?_⟩
        · rw [removeMax, if_pos hrl]
          exact hrne
        · rw [findMaxKvp, if_pos hrl]
        · rw [inorder_node, hre, hio2, hre]
          simp
        · exact hcR
        · intro hcc; cases hcc
      · have hszr : nsize r ≤ N := by
          have := nsize_pos l
          simp [nsize] at hsz
          omega
        obtain ⟨r2, p, hrm, hfm, hio2, hcR, hcB⟩ :=
          ihRM r hszr hr (by simpa using hrl)
        have hDel : DelB r2 n := hcB rfl
        obtain ⟨t3, hbe, hbio, hbR, hbB⟩ :=
          bubble_spec_right Color.Red k v hl hDel.1
            (fun _ => ⟨hDel.2, rfl⟩) (Or.inl rfl)
        refine ⟨t3, p, ?_, ?_, ?_, ?_, ?_⟩
        · rw [removeMax, if_neg hrl, hrm]
          exact hbe
        · rw [findMaxKvp, if_neg hrl]
          exact hfm
        · rw [inorder_node, hio2, hbio]
          simp
        · intro _
          exact hbR rfl
        · intro hcc; cases hcc

theorem delList_append_lt {K V : Type} [LinearOrder K] {k key : K} (h : key < k)
    (L R : List (K × V)) (v : V) (hkR : ∀ q ∈ R, k < q.1) :
    delList (L ++ (k, v) :: R) key = delList L key ++ (k, v) :: R := by
  cases hl : lookupKV L key with
  | some w => exact delList_append_mem (by rw [hl]; simp) _
  | none =>
    rw [delList_eq_self (lookupKV_eq_none_iff.mp hl),
      delList_append_not_mem (lookupKV_eq_none_iff.mp hl)]
    congr 1
    rw [delList, if_neg (ne_of_lt h),
      delList_eq_self (fun q hq hc => absurd hc (ne_of_gt (lt_trans h (hkR q hq))))]

theorem delList_append_gt {K V : Type} [LinearOrder K] {k key : K} (h : k < key)
    (L R : List (K × V)) (v : V) (hLk : ∀ q ∈ L, q.1 < k) :
    delList (L ++ (k, v) :: R) key = L ++ (k, v) :: delList R key := by
  have hnotL : ∀ q ∈ L, q.1 ≠ key := fun q hq hc =>
    absurd hc (ne_of_lt (lt_trans (hLk q hq) h))
  rw [delList_append_not_mem hnotL]
  congr 1
  rw [delList, if_neg (fun hc : key = k => absurd hc (ne_of_gt h))]

theorem delList_append_middle {K V : Type} [LinearOrder K] {key : K}
    (L R : List (K × V)) (v : V) (hLk : ∀ q ∈ L, q.1 < key) :
    delList (L ++ (key, v) :: R) key = L ++ R := by
  rw [delList_append_not_mem (fun q hq hc => absurd hc (ne_of_lt (hLk q hq))),
    delList, if_pos rfl]

theorem del_spec {K V : Type} [LinearOrder K] (key : K) :
    ∀ {t : NodeRef K V} {c : Color} {n : Nat}, IsRB t c n → SortedKV (inorder t) →
    ∃ t2 cnt, del t key = some (t2, cnt) ∧
      inorder t2 = delList (inorder t) key ∧
      (t.find key = none → cnt = 0) ∧ (t.find key ≠ none → cnt = 1) ∧
      (c = Color.Red → ∃ c2, IsRB t2 c2 n) ∧
      (c = Color.Black → DelB t2 n) := by
  intro t
  induction t with
  | leaf cc =>
    intro c n ht _
    cases ht
    refine ⟨.leaf Color.Black, 0, by simp [del], by simp [delList], fun _ => rfl,
      ?_, ?_, ?_⟩
    · intro hne; simp [NodeRef.find] at hne
    · intro hcc; cases hcc
    · intro _; exact ⟨DelRes.ok IsRB.leaf, Or.inl rfl⟩
  | node cc l k v r ihl ihr =>
    intro c n ht hs
    rw [inorder_node] at hs
    obtain ⟨hsL, hsR, hLk, hkR⟩ := sortedKV_middle.mp hs
    rcases lt_trichotomy key k with hlt | heq | hgt
    · cases ht with
      | @black _ _ _ _ m cl cr hl hr =>
        obtain ⟨l2, cnt, hde, hdio, h0, h1, hcR, hcB⟩ := ihl hl hsL
        have hDel : DelRes l2 m := by
          rcases hl.col_rb with rfl | rfl
          · obtain ⟨c2, hc2⟩ := hcR rfl
            exact DelRes.ok hc2
          · exact (hcB rfl).1
        obtain ⟨t2, hbe, hbio, hbR, hbB⟩ :=
          bubble_spec_left Color.Black k v hDel hr
            (fun hcc => (nomatch hcc)) (Or.inr rfl)
        refine ⟨t2, cnt, ?_, ?_, ?_, ?_, ?_, ?_⟩
        · simp only [del, if_pos hlt, hde, hbe]
        · rw [hbio, hdio, inorder_node, delList_append_lt hlt _ _ _ hkR]
        · intro h
          rw [NodeRef.find, if_pos hlt] at h
          exact h0 h
        · intro h
          rw [NodeRef.find, if_pos hlt] at h
          exact h1 h
        · intro hcc; cases hcc
        · intro _; exact hbB rfl
      | red hl hr =>
        obtain ⟨l2, cnt, hde, hdio, h0, h1, hcR, hcB⟩ := ihl hl hsL
        have hDel := hcB rfl
        obtain ⟨t2, hbe, hbio, hbR, hbB⟩ :=
          bubble_spec_left Color.Red k v hDel.1 hr
            (fun _ => ⟨hDel.2, rfl⟩) (Or.inl rfl)
        refine ⟨t2, cnt, ?_, ?_, ?_, ?_, ?_, ?_⟩
        · simp only [del, if_pos hlt, hde, hbe]
        · rw [hbio, hdio, inorder_node, delList_append_lt hlt _ _ _ hkR]
        · intro h
          rw [NodeRef.find, if_pos hlt] at h
          exact h0 h
        · intro h
          rw [NodeRef.find, if_pos hlt] at h
          exact h1 h
        · intro _; exact hbR rfl
        · intro hcc; cases hcc
    · subst heq
      have hfind : (NodeRef.node cc l key v r).find key = some v := by
        rw [NodeRef.find, if_neg (lt_irrefl key), if_neg (lt_irrefl key)]
      cases ht with
      | black hl hr =>
        obtain ⟨t2, hrne, hio2, hcR2, hcB2⟩ :=
          (delete_aux (nsize (NodeRef.node Color.Black l key v r))).1 Color.Black
            l key v r (le_refl _) (IsRB.black hl hr)
        refine ⟨t2, 1, ?_, ?_, ?_, fun _ => rfl, ?_, ?_⟩
        · simp only [del, if_neg (lt_irrefl key), hrne]
        · rw [hio2, inorder_node, delList_append_middle _ _ _ hLk]
        · intro h; rw [hfind] at h; cases h
        · intro hcc; cases hcc
        · intro _; exact hcB2 rfl
      | red hl hr =>
        obtain ⟨t2, hrne, hio2, hcR2, hcB2⟩ :=
          (delete_aux (nsize (NodeRef.node Color.Red l key v r))).1 Color.Red
            l key v r (le_refl _) (IsRB.red hl hr)
        refine ⟨t2, 1, ?_, ?_, ?_, fun _ => rfl, ?_, ?_⟩
        · simp only [del, if_neg (lt_irrefl key), hrne]
        · rw [hio2, inorder_node, delList_append_middle _ _ _ hLk]
        · intro h; rw [hfind] at h; cases h
        · intro _; exact hcR2 rfl
        · intro hcc; cases hcc
    · cases ht with
      | @black _ _ _ _ m cl cr hl hr =>
        obtain ⟨r2, cnt, hde, hdio, h0, h1, hcR, hcB⟩ := ihr hr hsR
        have hDel : DelRes r2 m := by
          rcases hr.col_rb with rfl | rfl
          · obtain ⟨c2, hc2⟩ := hcR rfl
            exact DelRes.ok hc2
          · exact (hcB rfl).1
        obtain ⟨t2, hbe, hbio, hbR, hbB⟩ :=
          bubble_spec_right Color.Black k v hl hDel
            (fun hcc => (nomatch hcc)) (Or.inr rfl)
        refine ⟨t2, cnt, ?_, ?_, ?_, ?_, ?_, ?_⟩
        · simp only [del, if_neg (not_lt_of_gt hgt), if_pos hgt, hde, hbe]
        · rw [hbio, hdio, inorder_node, delList_append_gt hgt _ _ _ hLk]
        · intro h
          rw [NodeRef.find, if_neg (not_lt_of_gt hgt), if_pos hgt] at h
          exact h0 h
        · intro h
          rw [NodeRef.find, if_neg (not_lt_of_gt hgt), if_pos hgt] at h
          exact h1 h
        · intro hcc; cases hcc
        · intro _; exact hbB rfl
      | red hl hr =>
        obtain ⟨r2, cnt, hde, hdio, h0, h1, hcR, hcB⟩ := ihr hr hsR
        have hDel := hcB rfl
        obtain ⟨t2, hbe, hbio, hbR, hbB⟩ :=
          bubble_spec_right Color.Red k v hl hDel.1
            (fun _ => ⟨hDel.2, rfl⟩) (Or.inl rfl)
        refine ⟨t2, cnt, ?_, ?_, ?_, ?_, ?_, ?_⟩
        · simp only [del, if_neg (not_lt_of_gt hgt), if_pos hgt, hde, hbe]
        · rw [hbio, hdio, inorder_node, delList_append_gt hgt _ _ _ hLk]
        · intro h
          rw [NodeRef.find, if_neg (not_lt_of_gt hgt), if_pos hgt] at h
          exact h0 h
        · intro h
          rw [NodeRef.find, if_neg (not_lt_of_gt hgt), if_pos hgt] at h
          exact h1 h
        · intro _; exact hbR rfl
        · intro hcc; cases hcc

theorem del_absent {K V : Type} [LinearOrder K] (key : K) :
    ∀ {t : NodeRef K V} {c : Color} {n : Nat}, IsRB t c n → t.find key = none →
    del t key = some (t, 0) := by
  intro t
  induction t with
  | leaf cc =>
    intro c n ht _
    cases ht
    simp [del]
  | node cc l k v r ihl ihr =>
    intro c n ht hf
    have hnb : ∀ {x : NodeRef K V} {cx : Color} {nx : Nat}, IsRB x cx nx →
        x.col ≠ Color.DoubleBlack := by
      intro x cx nx hx
      rw [hx.col_eq]
      rcases hx.col_rb with rfl | rfl <;> simp
    rcases lt_trichotomy key k with hlt | heq | hgt
    · rw [NodeRef.find, if_pos hlt] at hf
      cases ht with
      | black hl hr =>
        have hcond : ¬(l.col = Color.DoubleBlack ∨ r.col = Color.DoubleBlack) := by
          push_neg
          exact ⟨hnb hl, hnb hr⟩
        simp only [del, if_pos hlt, ihl hl hf, bubble, if_neg hcond]
      | red hl hr =>
        have hcond : ¬(l.col = Color.DoubleBlack ∨ r.col = Color.DoubleBlack) := by
          push_neg
          exact ⟨hnb hl, hnb hr⟩
        simp only [del, if_pos hlt, ihl hl hf, bubble, if_neg hcond]
    · subst heq
      rw [NodeRef.find, if_neg (lt_irrefl key), if_neg (lt_irrefl key)] at hf
      cases hf
    · rw [NodeRef.find, if_neg (not_lt_of_gt hgt), if_pos hgt] at hf
      cases ht with
      | black hl hr =>
        have hcond : ¬(l.col = Color.DoubleBlack ∨ r.col = Color.DoubleBlack) := by
          push_neg
          exact ⟨hnb hl, hnb hr⟩
        simp only [del, if_neg (not_lt_of_gt hgt), if_pos hgt, ihr hr hf, bubble,
          if_neg hcond]
      | red hl hr =>
        have hcond : ¬(l.col = Color.DoubleBlack ∨ r.col = Color.DoubleBlack) := by
          push_neg
          exact ⟨hnb hl, hnb hr⟩
        simp only [del, if_neg (not_lt_of_gt hgt), if_pos hgt, ihr hr hf, bubble,
          if_neg hcond]

theorem blacken_delres {K V : Type} {t : NodeRef K V} {n : Nat} (h : DelRes t n) :
    ∃ n2, IsRB (blacken t) Color.Black n2 := by
  cases h with
  | ok hIs => exact blacken_rb hIs
  | bbLeaf => exact ⟨1, IsRB.leaf⟩
  | bbNode hl hr => exact ⟨_, IsRB.black hl hr⟩

/-! ## Map-level specifications -/

theorem RedBlackTree.find_def {K V : Type} [LinearOrder K] (m : RedBlackTree K V)
    (key : K) : m.find key = m.root.find key := rfl

theorem wf_unpack {K V : Type} [LinearOrder K] {m : RedBlackTree K V} (h : RBInv m) :
    ∃ n, IsRB m.root m.root.col n ∧ SortedKV (inorder m.root) ∧
      m.len = (inorder m.root).length := by
  obtain ⟨hbst, hnr, ⟨n, hbh⟩, hpc, hlen⟩ := h
  have hs := bstOrder_iff_sorted.mp hbst
  exact ⟨n, invariants_to_isrb hpc hnr hbh, hs,
    by rw [hlen, distinctKeyCount_eq_length hs]⟩

theorem wf_pack {K V : Type} [LinearOrder K] {t : NodeRef K V} {n len : Nat}
    (h : IsRB t Color.Black n) (hs : SortedKV (inorder t))
    (hlen : len = (inorder t).length) :
    WFMap (⟨t, len⟩ : RedBlackTree K V) := by
  obtain ⟨hpc, hnr, hbh⟩ := isrb_to_invariants h
  have hbh' : EqualBH t n := by
    have hc := h.col_eq
    exact hbh
  refine ⟨⟨bstOrder_iff_sorted.mpr hs, hnr, ⟨n, hbh'⟩, hpc, ?_⟩, h.col_eq⟩
  show len = distinctKeyCount t
  rw [distinctKeyCount_eq_length hs]
  exact hlen

theorem new_wf {K V : Type} [LinearOrder K] :
    WFMap (RedBlackTree.new : RedBlackTree K V) :=
  ⟨⟨trivial, trivial, ⟨1, rfl⟩, rfl, rfl⟩, rfl⟩

theorem insert_spec {K V : Type} [LinearOrder K] {m : RedBlackTree K V} (key : K)
    (val : V) (h : RBInv m) :
    ∃ m2 wasNew, RedBlackTree.insert m key val = some (m2, wasNew) ∧
      WFMap m2 ∧
      inorder m2.root = insList (inorder m.root) key val ∧
      (wasNew = true ↔ m.find key = none) ∧
      (m.find key = none → m2.len = m.len + 1) ∧
      (m.find key ≠ none → m2.len = m.len) ∧
      m2.find key = some val := by
  obtain ⟨n, hrb, hs, hlen⟩ := wf_unpack h
  obtain ⟨t2, cnt, he, hio, h1, h0, n2, hrb2⟩ := modifyAt_spec key val hrb hs
  have hs2 : SortedKV (inorder t2) := by
    rw [hio]
    exact sortedKV_insList hs
  refine ⟨⟨t2, m.len + cnt⟩, cnt != 0, ?_, ?_, hio, ?_, ?_, ?_, ?_⟩
  · rw [RedBlackTree.insert, he]
  · apply wf_pack hrb2 hs2
    rw [hio]
    cases hf : m.root.find key with
    | none =>
      rw [h1 hf, length_insList_none val (by rw [← find_eq_lookupKV hs]; exact hf),
        hlen]
    | some w =>
      have hc0 : cnt = 0 := h0 (by rw [hf]; exact fun hc => Option.noConfusion hc)
      rw [hc0, length_insList_some val hs (by rw [← find_eq_lookupKV hs]; exact hf),
        hlen]
      omega
  · constructor
    · intro hw
      cases hf : m.root.find key with
      | none => exact hf
      | some w =>
        have hc0 : cnt = 0 := h0 (by rw [hf]; exact fun hc => Option.noConfusion hc)
        rw [hc0] at hw
        simp at hw
    · intro hf
      rw [h1 hf]
      rfl
  · intro hf
    show m.len + cnt = m.len + 1
    rw [h1 hf]
  · intro hf
    show m.len + cnt = m.len
    rw [h0 hf]
    omega
  · show t2.find key = some val
    rw [find_eq_lookupKV hs2, hio, lookupKV_insList_self]

theorem remove_spec {K V : Type} [LinearOrder K] {m : RedBlackTree K V} (key : K)
    (h : RBInv m) :
    ∃ m2 wasPresent, RedBlackTree.remove m key = some (m2, wasPresent) ∧
      WFMap m2 ∧
      inorder m2.root = delList (inorder m.root) key ∧
      (wasPresent = true ↔ m.find key ≠ none) ∧
      (m.find key = none → m2.len = m.len) ∧
      (m.find key ≠ none → m2.len = m.len - 1) ∧
      m2.find key = none := by
  obtain ⟨n, hrb, hs, hlen⟩ := wf_unpack h
  obtain ⟨t2, cnt, he, hio, h0, h1, hcR, hcB⟩ := del_spec key hrb hs
  have hs2 : SortedKV (inorder t2) := by
    rw [hio]
    exact sortedKV_delList hs
  obtain ⟨n2, hrb2⟩ : ∃ n2, IsRB (NodeRef.blacken t2) Color.Black n2 := by
    rcases hrb.col_rb with hcol | hcol
    · obtain ⟨c2, hc2⟩ := hcR hcol
      exact blacken_rb hc2
    · exact blacken_delres (hcB hcol).1
  have hio2 : inorder (NodeRef.blacken t2) = delList (inorder m.root) key := by
    rw [inorder_blacken, hio]
  have hs2b : SortedKV (inorder (NodeRef.blacken t2)) := by
    rw [inorder_blacken]
    exact hs2
  refine ⟨⟨t2.blacken, m.len - cnt⟩, cnt != 0, ?_, ?_, hio2, ?_, ?_, ?_, ?_⟩
  · rw [RedBlackTree.remove]
    simp only [NodeRef.delete, he]
  · apply wf_pack hrb2 hs2b
    rw [hio2]
    cases hf : m.root.find key with
    | none =>
      rw [h0 hf, length_delList_none (by rw [← find_eq_lookupKV hs]; exact hf), hlen]
      omega
    | some w =>
      have hc1 : cnt = 1 := h1 (by rw [hf]; exact fun hc => Option.noConfusion hc)
      rw [hc1, length_delList_some (by rw [← find_eq_lookupKV hs]; exact hf), hlen]
  · constructor
    · intro hw hf
      rw [h0 hf] at hw
      simp at hw
    · intro hf
      rw [h1 hf]
      rfl
  · intro hf
    show m.len - cnt = m.len
    rw [h0 hf]
    omega
  · intro hf
    show m.len - cnt = m.len - 1
    rw [h1 hf]
  · show (NodeRef.blacken t2).find key = none
    rw [find_eq_lookupKV hs2b, inorder_blacken, hio]
    exact lookupKV_delList_self hs

theorem applyOp_wf {K V : Type} [LinearOrder K] {m : RedBlackTree K V}
    (h : RBInv m) (op : MapOp K V) :
    ∃ m2, applyOp m op = some m2 ∧ WFMap m2 := by
  cases op with
  | insert k v =>
    obtain ⟨m2, wasNew, he, hwf, _⟩ := insert_spec k v h
    refine ⟨m2, ?_, hwf⟩
    simp only [applyOp, he, Option.map_some']
  | remove k =>
    obtain ⟨m2, wp, he, hwf, _⟩ := remove_spec k h
    refine ⟨m2, ?_, hwf⟩
    simp only [applyOp, he, Option.map_some']

theorem applyOps_wf {K V : Type} [LinearOrder K] :
    ∀ (ops : List (MapOp K V)) {m : RedBlackTree K V}, WFMap m →
    ∃ m2, applyOps m ops = some m2 ∧ WFMap m2 := by
  intro ops
  induction ops with
  | nil => intro m h; exact ⟨m, rfl, h⟩
  | cons op rest ih =>
    intro m h
    obtain ⟨m1, he1, hwf1⟩ := applyOp_wf h.1 op
    obtain ⟨m2, he2, hwf2⟩ := ih hwf1
    refine ⟨m2, ?_, hwf2⟩
    rw [applyOps, he1]
    exact he2

theorem applyOps_total {K V : Type} [LinearOrder K] (ops : List (MapOp K V))
    {m : RedBlackTree K V} (h : RBInv m) :
    ∃ m2, applyOps m ops = some m2 := by
  cases ops with
  | nil => exact ⟨m, rfl⟩
  | cons op rest =>
    obtain ⟨m1, he1, hwf1⟩ := applyOp_wf h op
    obtain ⟨m2, he2, _⟩ := applyOps_wf rest hwf1
    refine ⟨m2, ?_⟩
    rw [applyOps, he1]
    exact he2

theorem balanceNBLeftCase_id {K V : Type} {l : NodeRef K V} (c : Color) (k : K)
    (v : V) (r : NodeRef K V) (hl : l.col ≠ Color.NegativeBlack) :
    balanceNBLeftCase c l k v r = some (.node c l k v r) := by
  cases l with
  | leaf cc => cases cc <;> first | rfl | exact absurd rfl hl
  | node cc a ak av b => cases cc <;> first | rfl | exact absurd rfl hl

theorem balanceBBCases_id {K V : Type} {l r : NodeRef K V} (c : Color) (k : K)
    (v : V) (hl : l.col ≠ Color.NegativeBlack) (hr : r.col ≠ Color.NegativeBlack) :
    balanceBBCases c l k v r = some (.node c l k v r) := by
  by_cases hc : c = Color.DoubleBlack
  · subst hc
    cases r with
    | leaf cc =>
      cases cc <;>
        first
          | exact balanceNBLeftCase_id _ _ _ _ hl
          | exact absurd rfl hr
    | node cc b bk bv d =>
      cases cc <;>
        first
          | exact balanceNBLeftCase_id _ _ _ _ hl
          | exact absurd rfl hr
  · cases c with
    | DoubleBlack => exact absurd rfl hc
    | NegativeBlack => rfl
    | Red => rfl
    | Black => rfl

theorem balance_fired_case {K V : Type} {col rc : Color} {l r t : NodeRef K V}
    {k : K} {v : V} (hdec : Color.dec col = some rc)
    (hcol : col = Color.Black ∨ col = Color.DoubleBlack)
    (h : balanceOkasaki rc l k v r = .fired t) :
    balance (.node col l k v r) = some t := by
  simp only [balance, if_pos hcol, hdec, h]

theorem balance_fall_case {K V : Type} {col rc : Color} {l r : NodeRef K V}
    {k : K} {v : V} (hdec : Color.dec col = some rc)
    (hcol : col = Color.Black ∨ col = Color.DoubleBlack)
    (h : balanceOkasaki rc l k v r = .fallthrough)
    (hl : l.col ≠ Color.NegativeBlack) (hr : r.col ≠ Color.NegativeBlack) :
    balance (.node col l k v r) = some (.node col l k v r) := by
  simp only [balance, if_pos hcol, hdec, h]
  exact balanceBBCases_id col k v hl hr

/-! ## The claims -/

/-- Claim C1: every sequence of `insert`/`remove` operations starting from the
empty map succeeds, and the resulting map satisfies all five persisted
invariants: BST order, no Red node with a Red child, equal Black count on
every root-to-leaf path, no reachable NegativeBlack or DoubleBlack node, and
`len` equal to the number of distinct reachable keys.  Since this holds for
every operation list, it holds of every intermediate map (the result of every
prefix). -/
theorem claim_C1 {K V : Type} [LinearOrder K] (ops : List (MapOp K V)) :
    ∃ m2, applyOps RedBlackTree.new ops = some m2 ∧
      BSTOrder m2.root ∧ NoRedRedInv m2.root ∧ (∃ n, EqualBH m2.root n) ∧
      PersistedColors m2.root ∧ m2.len = distinctKeyCount m2.root := by
  obtain ⟨m2, he, hwf⟩ := applyOps_wf ops new_wf
  exact ⟨m2, he, hwf.1⟩

/-- Claim C2: on an invariant-satisfying map, `insert` returns `(m2, wasNew)`
with `wasNew` true iff the key was absent, `len` grown by one exactly when the
key was absent, and `find` on the new map returning the inserted value. -/
theorem claim_C2 {K V : Type} [LinearOrder K] {m : RedBlackTree K V} (key : K)
    (val : V) (h : RBInv m) :
    ∃ m2 wasNew, RedBlackTree.insert m key val = some (m2, wasNew) ∧
      (wasNew = true ↔ m.find key = none) ∧
      (m.find key = none → m2.len = m.len + 1) ∧
      (m.find key ≠ none → m2.len = m.len) ∧
      m2.find key = some val := by
  obtain ⟨m2, wn, he, hwf, hio, hiff, hlen1, hlen0, hfind⟩ := insert_spec key val h
  exact ⟨m2, wn, he, hiff, hlen1, hlen0, hfind⟩

theorem claim_C2_witness :
    ∃ (m2 : RedBlackTree Int Nat) (wasNew : Bool),
      RedBlackTree.insert (RedBlackTree.new : RedBlackTree Int Nat) 3 5 =
        some (m2, wasNew) ∧
      (wasNew = true ↔
        (RedBlackTree.new : RedBlackTree Int Nat).find 3 = none) ∧
      ((RedBlackTree.new : RedBlackTree Int Nat).find 3 = none →
        m2.len = (RedBlackTree.new : RedBlackTree Int Nat).len + 1) ∧
      ((RedBlackTree.new : RedBlackTree Int Nat).find 3 ≠ none →
        m2.len = (RedBlackTree.new : RedBlackTree Int Nat).len) ∧
      m2.find 3 = some 5 :=
  claim_C2 3 5 ⟨trivial, trivial, ⟨1, rfl⟩, rfl, rfl⟩

/-- Claim C3: on an invariant-satisfying map, `remove` returns
`(m2, wasPresent)` with `wasPresent` true iff the key was present, `len`
shrunk by one exactly when the key was present, and the key absent from the
new map. -/
theorem claim_C3 {K V : Type} [LinearOrder K] {m : RedBlackTree K V} (key : K)
    (h : RBInv m) :
    ∃ m2 wasPresent, RedBlackTree.remove m key = some (m2, wasPresent) ∧
      (wasPresent = true ↔ m.find key ≠ none) ∧
      (m.find key ≠ none → m2.len = m.len - 1) ∧
      (m.find key = none → m2.len = m.len) ∧
      m2.find key = none := by
  obtain ⟨m2, wp, he, hwf, hio, hiff, hlen0, hlen1, hfind⟩ := remove_spec key h
  exact ⟨m2, wp, he, hiff, hlen1, hlen0, hfind⟩

theorem claim_C3_witness :
    ∃ (m2 : RedBlackTree Int Nat) (wasPresent : Bool),
      RedBlackTree.remove (RedBlackTree.new : RedBlackTree Int Nat) 3 =
        some (m2, wasPresent) ∧
      (wasPresent = true ↔
        (RedBlackTree.new : RedBlackTree Int Nat).find 3 ≠ none) ∧
      ((RedBlackTree.new : RedBlackTree Int Nat).find 3 ≠ none →
        m2.len = (RedBlackTree.new : RedBlackTree Int Nat).len - 1) ∧
      ((RedBlackTree.new : RedBlackTree Int Nat).find 3 = none →
        m2.len = (RedBlackTree.new : RedBlackTree Int Nat).len) ∧
      m2.find 3 = none :=
  claim_C3 3 ⟨trivial, trivial, ⟨1, rfl⟩, rfl, rfl⟩

/-- Claim C4: on a Black or DoubleBlack node whose child and grandchild on one
search path are both Red (the four Okasaki shapes, checked left block first),
`balance` returns the canonical form: a `dec(col)`-colored node over two Black
nodes, keys in symmetric order.  On a Red node `balance` is the identity, and
when neither the Okasaki cases nor the two DoubleBlack-over-NegativeBlack
cases match (here: the Okasaki section falls through and neither child is
NegativeBlack) the node is returned unchanged. -/
theorem claim_C4 {K V : Type} (col rc : Color)
    (hdec : Color.dec col = some rc)
    (hcol : col = Color.Black ∨ col = Color.DoubleBlack) :
    (∀ (a b c d : NodeRef K V) (xk yk zk : K) (xv yv zv : V),
      balance (.node col (.node Color.Red (.node Color.Red a xk xv b) yk yv c)
          zk zv d) =
        some (.node rc (.node Color.Black a xk xv b) yk yv
          (.node Color.Black c zk zv d))) ∧
    (∀ (a b c d : NodeRef K V) (xk yk zk : K) (xv yv zv : V),
      a.col ≠ Color.Red →
      balance (.node col (.node Color.Red a xk xv (.node Color.Red b yk yv c))
          zk zv d) =
        some (.node rc (.node Color.Black a xk xv b) yk yv
          (.node Color.Black c zk zv d))) ∧
    (∀ (a b c d : NodeRef K V) (xk yk zk : K) (xv yv zv : V),
      okLeft rc a xk xv (.node Color.Red (.node Color.Red b yk yv c) zk zv d) =
        .fallthrough →
      balance (.node col a xk xv
          (.node Color.Red (.node Color.Red b yk yv c) zk zv d)) =
        some (.node rc (.node Color.Black a xk xv b) yk yv
          (.node Color.Black c zk zv d))) ∧
    (∀ (a b c d : NodeRef K V) (xk yk zk : K) (xv yv zv : V),
      okLeft rc a xk xv (.node Color.Red b yk yv (.node Color.Red c zk zv d)) =
        .fallthrough →
      b.col ≠ Color.Red →
      balance (.node col a xk xv
          (.node Color.Red b yk yv (.node Color.Red c zk zv d))) =
        some (.node rc (.node Color.Black a xk xv b) yk yv
          (.node Color.Black c zk zv d))) ∧
    (∀ (l r : NodeRef K V) (k : K) (v : V),
      balance (.node Color.Red l k v r) = some (.node Color.Red l k v r)) ∧
    (∀ (l r : NodeRef K V) (k : K) (v : V),
      balanceOkasaki rc l k v r = .fallthrough →
      l.col ≠ Color.NegativeBlack → r.col ≠ Color.NegativeBlack →
      balance (.node col l k v r) = some (.node col l k v r)) := by
  refine ⟨?_, ?_, ?_, ?_, ?_, ?_⟩
  · intro a b c d xk yk zk xv yv zv
    refine balance_fired_case hdec hcol ?_
    unfold balanceOkasaki
    rw [okLeft_ll]
  · intro a b c d xk yk zk xv yv zv ha
    refine balance_fired_case hdec hcol ?_
    unfold balanceOkasaki
    rw [okLeft_lr ha]
  · intro a b c d xk yk zk xv yv zv hfall
    refine balance_fired_case hdec hcol ?_
    unfold balanceOkasaki
    rw [hfall, okRight_rl]
  · intro a b c d xk yk zk xv yv zv hfall hb
    refine balance_fired_case hdec hcol ?_
    unfold balanceOkasaki
    rw [hfall, okRight_rr hb]
  · intro l r k v
    exact balance_red l k v r
  · intro l r k v hfall hl hr
    exact balance_fall_case hdec hcol hfall hl hr

theorem claim_C4_witness :
    NodeRef.balance (NodeRef.node Color.Black
        (NodeRef.node Color.Red
          (NodeRef.node Color.Red (NodeRef.leaf Color.Black) (1 : Int) (2 : Nat)
            (NodeRef.leaf Color.Black)) 3 4 (NodeRef.leaf Color.Black))
        5 6 (NodeRef.leaf Color.Black)) =
      some (NodeRef.node Color.Red
        (NodeRef.node Color.Black (NodeRef.leaf Color.Black) 1 2
          (NodeRef.leaf Color.Black))
        3 4
        (NodeRef.node Color.Black (NodeRef.leaf Color.Black) 5 6
          (NodeRef.leaf Color.Black))) :=
  (claim_C4 Color.Black Color.Red rfl (Or.inl rfl)).1
    (NodeRef.leaf Color.Black) (NodeRef.leaf Color.Black)
    (NodeRef.leaf Color.Black) (NodeRef.leaf Color.Black) 1 3 5 2 4 6

/-- Claim C5 (persistence): maps are immutable values in this embedding, so a
snapshot taken before a mutation is untouched by later operations.  The
theorem records what remains true of the snapshot `m` regardless of the
operation list: every subsequent operation sequence on it (or, by C1/its
descendants' well-formedness, on any descendant) succeeds, the snapshot still
satisfies the five invariants, and every `find` on the snapshot returns the
value determined by the snapshot's own key-value sequence, which no later
operation mentions. -/
theorem claim_C5 {K V : Type} [LinearOrder K] {m : RedBlackTree K V}
    (h : RBInv m) (ops : List (MapOp K V)) :
    (∃ m2, applyOps m ops = some m2) ∧ RBInv m ∧
      ∀ key : K, m.find key = lookupKV (inorder m.root) key := by
  refine ⟨applyOps_total ops h, h, ?_⟩
  intro key
  rw [RedBlackTree.find_def]
  exact find_eq_lookupKV (bstOrder_iff_sorted.mp h.1) key

theorem claim_C5_witness :
    (∃ m2, applyOps (RedBlackTree.new : RedBlackTree Int Nat)
        [MapOp.insert 1 2, MapOp.remove 1] = some m2) ∧
      RBInv (RedBlackTree.new : RedBlackTree Int Nat) ∧
      ∀ key : Int, (RedBlackTree.new : RedBlackTree Int Nat).find key =
        lookupKV (inorder (RedBlackTree.new : RedBlackTree Int Nat).root) key := by
  have h : RBInv (RedBlackTree.new : RedBlackTree Int Nat) :=
    ⟨trivial, trivial, ⟨1, rfl⟩, rfl, rfl⟩
  exact claim_C5 h [MapOp.insert 1 2, MapOp.remove 1]

/-- Claim C6 (corrected): the specification says the deletion-time node
removal MUST abort with an assertion on a Red node with one leaf child and
one non-leaf child, but the source (`remove`, lines 488-496) has no such
assertion: it silently returns the non-leaf child.  This theorem states what
the code actually does on that shape, in both orientations. -/
theorem claim_C6 {K V : Type} (l r : NodeRef K V) (k : K) (v : V) :
    (r.isLeaf = true → l.isLeaf = false →
      removeNode (.node Color.Red l k v r) = some l) ∧
    (l.isLeaf = true → r.isLeaf = false →
      removeNode (.node Color.Red l k v r) = some r) := by
  constructor
  · intro hr hl
    cases r with
    | node cc a ak av b => simp [NodeRef.isLeaf] at hr
    | leaf cc =>
      cases l with
      | leaf cl => simp [NodeRef.isLeaf] at hl
      | node cl a ak av b => simp [removeNode, NodeRef.isLeaf]
  · intro hl hr
    cases l with
    | node cc a ak av b => simp [NodeRef.isLeaf] at hl
    | leaf cc =>
      cases r with
      | leaf cl => simp [NodeRef.isLeaf] at hr
      | node cl a ak av b => simp [removeNode, NodeRef.isLeaf]

/-- Claim C6, counterexample to the frozen claim: on the Red node with a
non-leaf Black left child and a leaf right child, the removal procedure does
not abort (`none`); it returns the left child unchanged. -/
theorem claim_C6_counterexample :
    removeNode (NodeRef.node Color.Red
        (NodeRef.node Color.Black (NodeRef.leaf Color.Black) (1 : Int) (0 : Nat)
          (NodeRef.leaf Color.Black)) 2 0 (NodeRef.leaf Color.Black)) =
      some (NodeRef.node Color.Black (NodeRef.leaf Color.Black) 1 0
        (NodeRef.leaf Color.Black)) := by
  simp [removeNode]

/-- Claim C7 (totality): on a map satisfying the five persisted invariants,
`insert` and `remove` complete normally — no internal assertion fires, so the
`Option`-valued embedding returns `some`; `find` is total by construction
(its `Option` result is the lookup answer, not a failure mode). -/
theorem claim_C7 {K V : Type} [LinearOrder K] {m : RedBlackTree K V}
    (h : RBInv m) (key : K) (val : V) :
    (∃ result, RedBlackTree.insert m key val = some result) ∧
    (∃ result, RedBlackTree.remove m key = some result) := by
  obtain ⟨m1, b1, he1, _⟩ := insert_spec key val h
  obtain ⟨m2, b2, he2, _⟩ := remove_spec key h
  exact ⟨⟨(m1, b1), he1⟩, ⟨(m2, b2), he2⟩⟩

theorem claim_C7_witness :
    (∃ result, RedBlackTree.insert (RedBlackTree.new : RedBlackTree Int Nat)
        1 2 = some result) ∧
    (∃ result, RedBlackTree.remove (RedBlackTree.new : RedBlackTree Int Nat)
        1 = some result) := by
  have h : RBInv (RedBlackTree.new : RedBlackTree Int Nat) :=
    ⟨trivial, trivial, ⟨1, rfl⟩, rfl, rfl⟩
  exact claim_C7 h 1 2

/-- Claim C8: removing a key absent from a well-formed map (the invariants
plus the Black root every publicly produced map has) returns the flag `false`
and a map structurally equal to the input: the very same tree value — same
shape, colors, keys, values — and the same `len`. -/
theorem claim_C8 {K V : Type} [LinearOrder K] {m : RedBlackTree K V} (key : K)
    (h : WFMap m) (habs : m.find key = none) :
    RedBlackTree.remove m key = some (m, false) := by
  obtain ⟨n, hrb, hs, hlen⟩ := wf_unpack h.1
  have hd : del m.root key = some (m.root, 0) := del_absent key hrb habs
  have hblk : NodeRef.blacken m.root = m.root := by
    have hc := h.2
    cases hroot : m.root with
    | leaf c =>
      rw [hroot] at hc
      simp at hc
      rw [NodeRef.blacken, hc]
    | node c l2 k2 v2 r2 =>
      rw [hroot] at hc
      simp at hc
      rw [NodeRef.blacken, hc]
  rw [RedBlackTree.remove]
  simp only [NodeRef.delete, hd]
  rw [hblk]
  rfl

theorem claim_C8_witness :
    RedBlackTree.remove (RedBlackTree.new : RedBlackTree Int Nat) 0 =
      some (RedBlackTree.new, false) :=
  claim_C8 0 ⟨⟨trivial, trivial, ⟨1, rfl⟩, rfl, rfl⟩, rfl⟩ rfl

/-- Claim C9 (cancellation): for a key absent from an invariant-satisfying
map, inserting it and then removing it yields a map with the same `find`
result at every key and the same `len` as the original. -/
theorem claim_C9 {K V : Type} [LinearOrder K] {m : RedBlackTree K V} {key : K}
    (val : V) (h : RBInv m) (habs : m.find key = none) :
    ∃ m1 b1 m2 b2, RedBlackTree.insert m key val = some (m1, b1) ∧
      RedBlackTree.remove m1 key = some (m2, b2) ∧
      (∀ k2 : K, m2.find k2 = m.find k2) ∧ m2.len = m.len := by
  obtain ⟨n, hrb, hs, hlen⟩ := wf_unpack h
  obtain ⟨m1, b1, he1, hwf1, hio1, _, hlen1, _, hfind1⟩ := insert_spec key val h
  obtain ⟨m2, b2, he2, hwf2, hio2, _, _, hlen2, _⟩ := remove_spec key hwf1.1
  have hlkm : lookupKV (inorder m.root) key = none := by
    rw [← find_eq_lookupKV hs]
    exact habs
  have hio : inorder m2.root = inorder m.root := by
    rw [hio2, hio1, delList_insList_fresh hlkm]
  refine ⟨m1, b1, m2, b2, he1, he2, ?_, ?_⟩
  · intro k2
    have hs2 : SortedKV (inorder m2.root) :=
      bstOrder_iff_sorted.mp hwf2.1.1
    rw [RedBlackTree.find_def, RedBlackTree.find_def, find_eq_lookupKV hs2,
      find_eq_lookupKV hs, hio]
  · have h1 : m1.len = m.len + 1 := hlen1 habs
    have h2 : m2.len = m1.len - 1 := by
      refine hlen2 ?_
      rw [hfind1]
      exact fun hc => Option.noConfusion hc
    omega

theorem claim_C9_witness :
    ∃ (m1 : RedBlackTree Int Nat) (b1 : Bool) (m2 : RedBlackTree Int Nat)
      (b2 : Bool),
      RedBlackTree.insert (RedBlackTree.new : RedBlackTree Int Nat) 1 5 =
        some (m1, b1) ∧
      RedBlackTree.remove m1 1 = some (m2, b2) ∧
      (∀ k2 : Int, m2.find k2 =
        (RedBlackTree.new : RedBlackTree Int Nat).find k2) ∧
      m2.len = (RedBlackTree.new : RedBlackTree Int Nat).len := by
  have h : RBInv (RedBlackTree.new : RedBlackTree Int Nat) :=
    ⟨trivial, trivial, ⟨1, rfl⟩, rfl, rfl⟩
  exact claim_C9 5 h rfl

/-- Claim C10 (implicit Black-root invariant): the empty map's root is Black,
and on an invariant-satisfying input every map returned by `insert` or
`remove` has a Black root — never Red, DoubleBlack or NegativeBlack — because
both operations blacken the rebuilt root before returning. -/
theorem claim_C10 {K V : Type} [LinearOrder K] :
    (RedBlackTree.new : RedBlackTree K V).root.col = Color.Black ∧
    (∀ (m m2 : RedBlackTree K V) (key : K) (val : V) (wasNew : Bool),
      RBInv m → RedBlackTree.insert m key val = some (m2, wasNew) →
      m2.root.col = Color.Black) ∧
    (∀ (m m2 : RedBlackTree K V) (key : K) (wasPresent : Bool),
      RBInv m → RedBlackTree.remove m key = some (m2, wasPresent) →
      m2.root.col = Color.Black) := by
  refine ⟨rfl, ?_, ?_⟩
  · intro m m2 key val wasNew h he
    obtain ⟨m2', wn', he', hwf', _⟩ := insert_spec key val h
    have heq := he.symm.trans he'
    simp only [Option.some.injEq, Prod.mk.injEq] at heq
    rw [heq.1]
    exact hwf'.2
  · intro m m2 key wasPresent h he
    obtain ⟨m2', wp', he', hwf', _⟩ := remove_spec key h
    have heq := he.symm.trans he'
    simp only [Option.some.injEq, Prod.mk.injEq] at heq
    rw [heq.1]
    exact hwf'.2
